import Mathlib

/-!
# Verification of the dgraph-loader document-to-upsert compiler

A shallow embedding of `src/main.rs` of devyn/dgraph-loader: the JSON value
model, the node classifier `is_node`, the nquad estimator `count_nquads`,
the document compiler `process_doc`, the chunk aggregation performed by
`process_chunk`, and the commit retry loop.  Theorems at the end of the file
settle the specification claims against these definitions.

Conventions of the embedding:

* `serde_json::Value` becomes the inductive `Json`.  Numbers are modelled as
  integers (no claim depends on float formatting).  A `serde_json::Map` is
  modelled as an association list in its iteration order; maps produced by
  parsing have distinct keys.
* The compiler's in-place mutation of `String`/`Vec` accumulators becomes
  explicit state passing of `St`.  The accumulated query text is kept as the
  list of emitted lines; `process_chunk` renders it with the surrounding
  braces exactly as the source does.
* `Mutation::set_set_json` / `set_cond` become the `Mutation` structure.
* `obj.remove(key)` for each matched key followed by iteration over the
  remaining entries is modelled by iterating the original entries and
  skipping the matched keys (`matched.contains k`): on maps with distinct
  keys the two are the same, and it keeps the recursion structural.
* `bail!` / `?` error propagation becomes an `Except String` result paired
  with the state reached when the error is raised (the source's accumulators
  keep their partial contents at that point).
* `offset` is a `u32` in the source; it counts pattern-matched fields of one
  document, so overflow is unreachable and it is modelled as `Nat`.
-/

/-- JSON value tree, modelling `serde_json::Value` (numbers restricted to
integers; objects are association lists in map iteration order). -/
inductive Json where
  | null
  | bool (b : Bool)
  | num (n : Int)
  | str (s : String)
  | arr (elems : List Json)
  | obj (fields : List (String × Json))

mutual

def jsonDecEq : (a b : Json) → Decidable (a = b)
  | .null, .null => .isTrue rfl
  | .null, .bool _ => .isFalse (fun h => Json.noConfusion h)
  | .null, .num _ => .isFalse (fun h => Json.noConfusion h)
  | .null, .str _ => .isFalse (fun h => Json.noConfusion h)
  | .null, .arr _ => .isFalse (fun h => Json.noConfusion h)
  | .null, .obj _ => .isFalse (fun h => Json.noConfusion h)
  | .bool _, .null => .isFalse (fun h => Json.noConfusion h)
  | .bool x, .bool y =>
    match decEq x y with
    | .isTrue h => .isTrue (h ▸ rfl)
    | .isFalse h => .isFalse (fun e => h (by cases e; rfl))
  | .bool _, .num _ => .isFalse (fun h => Json.noConfusion h)
  | .bool _, .str _ => .isFalse (fun h => Json.noConfusion h)
  | .bool _, .arr _ => .isFalse (fun h => Json.noConfusion h)
  | .bool _, .obj _ => .isFalse (fun h => Json.noConfusion h)
  | .num _, .null => .isFalse (fun h => Json.noConfusion h)
  | .num _, .bool _ => .isFalse (fun h => Json.noConfusion h)
  | .num x, .num y =>
    match decEq x y with
    | .isTrue h => .isTrue (h ▸ rfl)
    | .isFalse h => .isFalse (fun e => h (by cases e; rfl))
  | .num _, .str _ => .isFalse (fun h => Json.noConfusion h)
  | .num _, .arr _ => .isFalse (fun h => Json.noConfusion h)
  | .num _, .obj _ => .isFalse (fun h => Json.noConfusion h)
  | .str _, .null => .isFalse (fun h => Json.noConfusion h)
  | .str _, .bool _ => .isFalse (fun h => Json.noConfusion h)
  | .str _, .num _ => .isFalse (fun h => Json.noConfusion h)
  | .str x, .str y =>
    match decEq x y with
    | .isTrue h => .isTrue (h ▸ rfl)
    | .isFalse h => .isFalse (fun e => h (by cases e; rfl))
  | .str _, .arr _ => .isFalse (fun h => Json.noConfusion h)
  | .str _, .obj _ => .isFalse (fun h => Json.noConfusion h)
  | .arr _, .null => .isFalse (fun h => Json.noConfusion h)
  | .arr _, .bool _ => .isFalse (fun h => Json.noConfusion h)
  | .arr _, .num _ => .isFalse (fun h => Json.noConfusion h)
  | .arr _, .str _ => .isFalse (fun h => Json.noConfusion h)
  | .arr xs, .arr ys =>
    match jsonListDecEq xs ys with
    | .isTrue h => .isTrue (h ▸ rfl)
    | .isFalse h => .isFalse (fun e => h (by cases e; rfl))
  | .arr _, .obj _ => .isFalse (fun h => Json.noConfusion h)
  | .obj _, .null => .isFalse (fun h => Json.noConfusion h)
  | .obj _, .bool _ => .isFalse (fun h => Json.noConfusion h)
  | .obj _, .num _ => .isFalse (fun h => Json.noConfusion h)
  | .obj _, .str _ => .isFalse (fun h => Json.noConfusion h)
  | .obj _, .arr _ => .isFalse (fun h => Json.noConfusion h)
  | .obj fs, .obj gs =>
    match jsonFieldsDecEq fs gs with
    | .isTrue h => .isTrue (h ▸ rfl)
    | .isFalse h => .isFalse (fun e => h (by cases e; rfl))

def jsonListDecEq : (a b : List Json) → Decidable (a = b)
  | [], [] => .isTrue rfl
  | [], _ :: _ => .isFalse (fun h => List.noConfusion h)
  | _ :: _, [] => .isFalse (fun h => List.noConfusion h)
  | x :: xs, y :: ys =>
    match jsonDecEq x y, jsonListDecEq xs ys with
    | .isTrue h1, .isTrue h2 => .isTrue (by rw [h1, h2])
    | .isFalse h1, _ => .isFalse (fun e => h1 (by cases e; rfl))
    | .isTrue _, .isFalse h2 => .isFalse (fun e => h2 (by cases e; rfl))

def jsonFieldsDecEq : (a b : List (String × Json)) → Decidable (a = b)
  | [], [] => .isTrue rfl
  | [], _ :: _ => .isFalse (fun h => List.noConfusion h)
  | _ :: _, [] => .isFalse (fun h => List.noConfusion h)
  | (k1, v1) :: xs, (k2, v2) :: ys =>
    match decEq k1 k2, jsonDecEq v1 v2, jsonFieldsDecEq xs ys with
    | .isTrue h0, .isTrue h1, .isTrue h2 => .isTrue (by rw [h0, h1, h2])
    | .isFalse h0, _, _ => .isFalse (fun e => h0 (by cases e; rfl))
    | .isTrue _, .isFalse h1, _ => .isFalse (fun e => h1 (by cases e; rfl))
    | .isTrue _, .isTrue _, .isFalse h2 => .isFalse (fun e => h2 (by cases e; rfl))

end

instance : DecidableEq Json := jsonDecEq

instance {ε α : Type} [DecidableEq ε] [DecidableEq α] : DecidableEq (Except ε α) := fun a b =>
  match a, b with
  | .ok x, .ok y =>
    if h : x = y then .isTrue (by rw [h]) else .isFalse (by simp [h])
  | .error x, .error y =>
    if h : x = y then .isTrue (by rw [h]) else .isFalse (by simp [h])
  | .ok _, .error _ => .isFalse (fun h => Except.noConfusion h)
  | .error _, .ok _ => .isFalse (fun h => Except.noConfusion h)

/-- `Value::is_object`. -/
def Json.isObj : Json → Bool
  | .obj _ => true
  | _ => false

/-- Map field access (`value["key"]` on an object, as far as it is used). -/
def getField (fields : List (String × Json)) (k : String) : Option Json :=
  (fields.find? (fun p => p.1 == k)).map (fun p => p.2)

/-- The static `GEOJSON_TYPES` list from the source. -/
def GEOJSON_TYPES : List String :=
  ["Point", "LineString", "Polygon", "MultiPoint", "MultiLineString",
   "MultiPolygon", "GeometryCollection", "Feature", "FeatureCollection"]

/-- `is_node`: value is an object and does not look like geojson
(`value["type"]` is not one of the recognized geojson type names). -/
def is_node (v : Json) : Bool :=
  let is_geojson :=
    match v with
    | .obj fields =>
      match getField fields "type" with
      | some (.str s) => GEOJSON_TYPES.contains s
      | _ => false
    | _ => false
  v.isObj && !is_geojson

mutual

/-- `count_nquads`: anticipated number of nquads in a document.  A node sums
the counts of its non-`uid` fields; any other value counts as 1. -/
def count_nquads : Json → Nat
  | .obj fields =>
    if is_node (.obj fields) then count_nquads_fields fields else 1
  | _ => 1

/-- The `filter(key != "uid").map(count_nquads).sum()` part of `count_nquads`. -/
def count_nquads_fields : List (String × Json) → Nat
  | [] => 0
  | (k, v) :: rest =>
    (if k = "uid" then 0 else count_nquads v) + count_nquads_fields rest

end

/-- JSON string escaping as used by `serde_json`'s `Display` (the characters
relevant to this data: quote, backslash and control characters). -/
def escapeChar (c : Char) : String :=
  if c = '"' then "\\\""
  else if c = '\\' then "\\\\"
  else if c = '\n' then "\\n"
  else if c = '\t' then "\\t"
  else if c = '\r' then "\\r"
  else String.singleton c

def escapeString (s : String) : String :=
  String.join (s.toList.map escapeChar)

mutual

/-- Compact JSON rendering, modelling `format!("{}", value)` on a
`serde_json::Value` (its `Display` implementation). -/
def Json.render : Json → String
  | .null => "null"
  | .bool b => if b then "true" else "false"
  | .num n => toString n
  | .str s => "\"" ++ escapeString s ++ "\""
  | .arr elems => "[" ++ renderElems elems ++ "]"
  | .obj fields => "\x7b" ++ renderFields fields ++ "\x7d"

def renderElems : List Json → String
  | [] => ""
  | [x] => x.render
  | x :: rest => x.render ++ "," ++ renderElems rest

def renderFields : List (String × Json) → String
  | [] => ""
  | [(k, v)] => "\"" ++ escapeString k ++ "\":" ++ v.render
  | (k, v) :: rest => "\"" ++ escapeString k ++ "\":" ++ v.render ++ "," ++ renderFields rest

end

/-- A `dgraph_tonic::Mutation` as this program builds them: a `set_json`
payload and an optional `@if(...)` condition. -/
structure Mutation where
  setJson : Json
  cond : Option String
deriving DecidableEq

/-- The accumulators threaded through `process_doc`: the per-document
variable counter `offset`, the emitted query lines, the `set_docs` vector
(merged into one final mutation) and the conditional `mutations` vector. -/
structure St where
  offset : Nat
  query : List String
  setDocs : List Json
  mutations : List Mutation
deriving DecidableEq

/-- `format!("v_{}", index)`: the shared fallback variable name for a
document's node (used as union variable or blank-node name). -/
def doc_var_name (index : Nat) : String :=
  "v_" ++ toString index

/-- `format!("v_{}_{}", index, offset)`: a per-key query variable name. -/
def var_name_for (index : Nat) (offset : Nat) : String :=
  doc_var_name index ++ "_" ++ toString offset

/-- The `bail!` message for an input-supplied `uid` field. -/
def uid_err (index : Nat) : String :=
  "Manually setting uid is not supported, at " ++ toString index

/-- The conditional mutation emitted for one upsert key: payload
`[{"uid": "uid(var)", key: value}]` guarded by `@if(eq(len(var), 0))`. -/
def upsert_mutation (var k : String) (v : Json) : Mutation :=
  { setJson := .arr [.obj [("uid", .str ("uid(" ++ var ++ ")")), (k, v)]]
  , cond := some ("@if(eq(len(" ++ var ++ "), 0))") }

/-- One lookup query line:
`writeln!(query, "{} as var(func: eq(<{}>, {}), first: 1)", var, key, value)`. -/
def lookup_line (var k : String) (v : Json) : String :=
  var ++ " as var(func: eq(<" ++ k ++ ">, " ++ v.render ++ "), first: 1)\n"

/-- The union query line emitted when a node has several upsert keys:
`writeln!(query, "{} as var(func: uid({}), first: 1)", var_name, joined)`. -/
def union_line (docVar : String) (vars : List String) : String :=
  docVar ++ " as var(func: uid(" ++ String.intercalate "," vars ++ "), first: 1)\n"

/-- The first loop of `process_doc`: scan the object's own entries in order,
bailing out on a key literally named `uid`, and allocating a query variable
`v_{index}_{offset}` for every key matched by an upsert pattern.  Returns the
offset reached together with the collected `(var, key, value)` triples (or
the error).  `pats k` models `upsert_patterns.iter().any(|p| p.is_match(k))`. -/
def scanVars (pats : String → Bool) (index : Nat) :
    List (String × Json) → Nat → Nat × Except String (List (String × String × Json))
  | [], off => (off, .ok [])
  | (k, v) :: rest, off =>
    if k = "uid" then (off, .error (uid_err index))
    else if pats k then
      match scanVars pats index rest (off + 1) with
      | (off', .ok vs) => (off', .ok ((var_name_for index (off + 1), k, v) :: vs))
      | (off', .error e) => (off', .error e)
    else scanVars pats index rest off

/-- The variable name used for the document node itself (`var_name` in the
source): the single collected variable's name when there is exactly one,
the fallback `v_{index}` otherwise. -/
def doc_var (index : Nat) (vars : List (String × String × Json)) : String :=
  if vars.length = 1 then (vars.headD ("", "", Json.null)).1
  else doc_var_name index

/-- The identity reference of a node (`this_ref` in the source): `uid(var)`
when at least one upsert key matched, a blank-node name `_:var` otherwise. -/
def node_ref (index : Nat) (vars : List (String × String × Json)) : String :=
  if vars.length > 0 then "uid(" ++ doc_var index vars ++ ")"
  else "_:" ++ doc_var index vars

/-- The query lines one node's scan emits: a lookup line per collected
variable, then a union line over all of them when there are several. -/
def node_query_lines (index : Nat) (vars : List (String × String × Json)) : List String :=
  vars.map (fun t => lookup_line t.1 t.2.1 t.2.2) ++
    (if vars.length > 1 then [union_line (doc_var index vars) (vars.map (fun t => t.1))]
     else [])

/-- The accumulator state after one node's scan: offset advanced, the node's
query lines appended, one guarded mutation per collected variable appended. -/
def scan_state (st : St) (index : Nat) (off : Nat)
    (vars : List (String × String × Json)) : St :=
  { offset := off
  , query := st.query ++ node_query_lines index vars
  , setDocs := st.setDocs
  , mutations := st.mutations ++ vars.map (fun t => upsert_mutation t.1 t.2.1 t.2.2) }

mutual

/-- `process_doc`: compile one (sub-)document.  Scans for upsert keys, emits
one conditional mutation and one lookup line per key (plus a union line when
there are several), strips the matched keys, recurses into the remaining
node-like fields, assigns the node's `uid` reference, and finally either
leaves the (identity-only) object in place or pushes it to `set_docs` and
leaves a `{"uid": ref}` stub behind. -/
def process_doc (pats : String → Bool) (index : Nat) (doc : Json) (st : St) :
    St × Except String Json :=
  match doc with
  | .obj fields =>
    match scanVars pats index fields st.offset with
    | (off, .error e) => ({ st with offset := off }, .error e)
    | (off, .ok vars) =>
      let matched := vars.map (fun t => t.2.1)
      match process_fields pats index matched fields (scan_state st index off vars) with
      | (st2, .error e) => (st2, .error e)
      | (st2, .ok fields2) =>
        let withUid := fields2 ++ [("uid", Json.str (node_ref index vars))]
        if withUid.length > 1 then
          ({ st2 with setDocs := st2.setDocs ++ [Json.obj withUid] },
           .ok (Json.obj [("uid", Json.str (node_ref index vars))]))
        else
          (st2, .ok (Json.obj withUid))
  | other =>
    (st, .error ("Expected object at " ++ toString index ++
                 ", but found other document: " ++ other.render))

/-- The recursion of `process_doc` over the object's entries after the
matched upsert keys have been removed (`matched.contains k` marks the removed
keys; map keys are distinct, so skipping them equals iterating the map after
`obj.remove(key)`).  A field whose value is a node object is compiled
recursively; a field holding an array whose elements are all nodes is
compiled element by element; anything else is kept inline. -/
def process_fields (pats : String → Bool) (index : Nat) (matched : List String) :
    List (String × Json) → St → St × Except String (List (String × Json))
  | [], st => (st, .ok [])
  | (k, v) :: rest, st =>
    if matched.contains k then process_fields pats index matched rest st
    else
      match v with
      | .obj fs =>
        if is_node (.obj fs) then
          match process_doc pats index (.obj fs) st with
          | (st', .error e) => (st', .error e)
          | (st', .ok v') =>
            match process_fields pats index matched rest st' with
            | (st'', .error e) => (st'', .error e)
            | (st'', .ok rest') => (st'', .ok ((k, v') :: rest'))
        else
          match process_fields pats index matched rest st with
          | (st'', .error e) => (st'', .error e)
          | (st'', .ok rest') => (st'', .ok ((k, .obj fs) :: rest'))
      | .arr items =>
        if items.all is_node then
          match process_items pats index items st with
          | (st', .error e) => (st', .error e)
          | (st', .ok items') =>
            match process_fields pats index matched rest st' with
            | (st'', .error e) => (st'', .error e)
            | (st'', .ok rest') => (st'', .ok ((k, .arr items') :: rest'))
        else
          match process_fields pats index matched rest st with
          | (st'', .error e) => (st'', .error e)
          | (st'', .ok rest') => (st'', .ok ((k, .arr items) :: rest'))
      | w =>
        match process_fields pats index matched rest st with
        | (st'', .error e) => (st'', .error e)
        | (st'', .ok rest') => (st'', .ok ((k, w) :: rest'))

/-- Element-wise compilation of an all-node array field. -/
def process_items (pats : String → Bool) (index : Nat) :
    List Json → St → St × Except String (List Json)
  | [], st => (st, .ok [])
  | item :: rest, st =>
    match process_doc pats index item st with
    | (st', .error e) => (st', .error e)
    | (st', .ok item') =>
      match process_items pats index rest st' with
      | (st'', .error e) => (st'', .error e)
      | (st'', .ok rest') => (st'', .ok (item' :: rest'))

end

/-- The aggregated output of `process_chunk`'s compile phase: the query text,
the mutation list, and the stats returned on success. -/
structure ChunkOut where
  query : String
  mutations : List Mutation
  completedDocs : Nat
  completedNquads : Nat
deriving DecidableEq

/-- The per-document loop of `process_chunk`: for each (index, document),
reset the offset counter, add the document's `count_nquads` estimate, and run
`process_doc`, threading the shared accumulators.  (Parsing of the raw line
into a document happens before this in the source; the chunk is modelled as
the already-parsed values.) -/
def chunkFold (pats : String → Bool) :
    List (Nat × Json) → St → Nat → Except String (St × Nat)
  | [], st, nquads => .ok (st, nquads)
  | (index, doc) :: rest, st, nquads =>
    let nquads' := nquads + count_nquads doc
    match process_doc pats index doc { st with offset := 0 } with
    | (st', .ok _) => chunkFold pats rest st' nquads'
    | (_, .error e) => .error e

/-- The compile phase of `process_chunk`: run the per-document loop starting
from empty accumulators, wrap the concatenated query lines in one outer
block, and append one final unconditional mutation holding all `set_docs`
(only when there are any). -/
def processChunkCompile (pats : String → Bool) (chunk : List (Nat × Json)) :
    Except String ChunkOut :=
  match chunkFold pats chunk { offset := 0, query := [], setDocs := [], mutations := [] } 0 with
  | .error e => .error e
  | .ok (st, nquads) =>
    let mutations :=
      if st.setDocs.length > 0 then
        st.mutations ++ [{ setJson := Json.arr st.setDocs, cond := none }]
      else st.mutations
    .ok { query := "\x7b\n" ++ String.join st.query ++ "\x7d"
        , mutations := mutations
        , completedDocs := chunk.length
        , completedNquads := nquads }

/-- The mutation list of a successful chunk compile (empty on error). -/
def chunk_mutations : Except String ChunkOut → List Mutation
  | .ok out => out.mutations
  | .error _ => []

/-- The query text of a successful chunk compile (empty on error). -/
def chunk_query : Except String ChunkOut → String
  | .ok out => out.query
  | .error _ => ""

/-! ## The commit retry loop of `process_chunk`

The network transport is abstracted by an oracle: a list of outcomes, one per
commit attempt, and a list of random draws for the backoff sleeps.  The loop
structure, the error classification and the derived quantities (submissions,
sleeps, abort counter) follow the source's `'retry: loop` exactly. -/

/-- The `tonic::Code` values distinguished by the retry loop. -/
inductive GrpcCode where
  | aborted
  | resourceExhausted
  | otherCode (n : Nat)
deriving DecidableEq

/-- Classification of a failed commit attempt, following the source's
downcast chain: an error that is not a `DgraphError` (propagated by `?`); a
`DgraphError::GrpcError` holding `ClientError::CannotDoRequest(status)`; a
`GrpcError` holding anything else; or another `DgraphError` variant. -/
inductive CommitError where
  | notDgraph (msg : String)
  | grpcCannotDoRequest (code : GrpcCode)
  | grpcOther
  | otherDgraph
deriving DecidableEq

/-- One commit attempt either succeeds or fails with a classified error. -/
inductive Attempt where
  | success
  | failure (e : CommitError)
deriving DecidableEq

/-- The errors the retry loop treats as transient: `Code::Aborted` and
`Code::ResourceExhausted` inside `ClientError::CannotDoRequest`. -/
def is_transient : CommitError → Bool
  | .grpcCannotDoRequest .aborted => true
  | .grpcCannotDoRequest .resourceExhausted => true
  | _ => false

/-- `rand::thread_rng().gen_range(500..1500)`: a draw uniform over the
half-open window `[500, 1500)`, modelled as a function of one entropy value. -/
def gen_range_500_1500 (r : Nat) : Nat := 500 + r % 1000

/-- Result of the retry loop: the transaction committed, a fatal error was
propagated, or the attempt oracle was exhausted (the source loop would still
be running). -/
inductive TxnResult where
  | committed
  | fatal (e : CommitError)
  | exhausted
deriving DecidableEq

/-- Observable trace of the retry loop: every `(query, mutations)` pair
submitted, every backoff sleep performed, the abort counter, and the result. -/
structure RetryTrace where
  submissions : List (String × List Mutation)
  sleeps : List Nat
  aborted : Nat
  result : TxnResult
deriving DecidableEq

/-- The `'retry: loop` of `process_chunk`: submit the query plus the full
mutation list; on success stop; on `Aborted`/`ResourceExhausted` increment
the abort counter, sleep a random `500..1500` millisecond duration and retry
the whole transaction unchanged; on any other failure propagate it. -/
def retry_loop (query : String) (mutations : List Mutation) :
    List Attempt → List Nat → RetryTrace
  | [], _ => { submissions := [], sleeps := [], aborted := 0, result := .exhausted }
  | .success :: _, _ =>
    { submissions := [(query, mutations)], sleeps := [], aborted := 0, result := .committed }
  | .failure e :: restAttempts, rands =>
    match e with
    | .grpcCannotDoRequest .aborted | .grpcCannotDoRequest .resourceExhausted =>
      let msec := gen_range_500_1500 (rands.headD 0)
      let t := retry_loop query mutations restAttempts rands.tail
      { submissions := (query, mutations) :: t.submissions
      , sleeps := msec :: t.sleeps
      , aborted := t.aborted + 1
      , result := t.result }
    | _ =>
      { submissions := [(query, mutations)], sleeps := [], aborted := 0, result := .fatal e }

/-! ## Definitions following the specification's wording

These formalize notions that appear only in the specification's claims (the
round-trip graph reading, the claimed leaf counting); each is clearly marked
and is compared against the source-derived definitions in the theorems. -/

mutual

/-- Modelled from the spec: the number of node-shaped values in a document
under the §4.1 classification (a non-geojson object is a node; an array all
of whose elements are node-like is descended into), counted recursively. -/
def node_shaped_count : Json → Nat
  | .obj fields =>
    if is_node (.obj fields) then 1 + nsc_fields fields else 0
  | .arr items =>
    if items.all is_node then nsc_items items else 0
  | _ => 0

def nsc_fields : List (String × Json) → Nat
  | [] => 0
  | (_, v) :: rest => node_shaped_count v + nsc_fields rest

def nsc_items : List Json → Nat
  | [] => 0
  | i :: rest => node_shaped_count i + nsc_items rest

end

mutual

/-- Modelled from the spec: the identity references occurring in a mutation
payload — every string value of a `"uid"` field, collected recursively.
Applying the mutations against an empty database (all guards true) creates
one graph node per distinct identity reference, so the distinct elements of
this collection are the nodes of the resulting graph. -/
def collect_uids : Json → List String
  | .obj fields => cu_fields fields
  | .arr items => cu_items items
  | _ => []

def cu_fields : List (String × Json) → List String
  | [] => []
  | (k, v) :: rest =>
    (if k = "uid" then
      match v with
      | .str s => [s]
      | _ => []
    else []) ++ collect_uids v ++ cu_fields rest

def cu_items : List Json → List String
  | [] => []
  | i :: rest => collect_uids i ++ cu_items rest

end

/-- Modelled from the spec: the number of nodes of the graph obtained by
applying a mutation list against an empty database with every guard
condition evaluating true — the number of distinct identity references. -/
def graph_node_count (muts : List Mutation) : Nat :=
  ((muts.map (fun m => collect_uids m.setJson)).flatten.dedup).length

mutual

/-- Modelled from the spec: the leaf count asserted by claim C8 — one per
scalar/non-node leaf, recursing through node fields under the compiler's
classification, descending element by element into arrays whose elements are
all node-like, and excluding the identity field. -/
def spec_leaf_count : Json → Nat
  | .obj fields =>
    if is_node (.obj fields) then slc_fields fields else 1
  | .arr items =>
    if items.all is_node then slc_items items else 1
  | _ => 1

def slc_fields : List (String × Json) → Nat
  | [] => 0
  | (k, v) :: rest => (if k = "uid" then 0 else spec_leaf_count v) + slc_fields rest

def slc_items : List Json → Nat
  | [] => 0
  | i :: rest => spec_leaf_count i + slc_items rest

end

mutual

/-- Modelled from the spec, amended: the leaf count with every array —
including an all-node array — treated as one opaque leaf, matching the
estimator's classification; identity fields excluded. -/
def spec_leaf_count_flat : Json → Nat
  | .obj fields =>
    if is_node (.obj fields) then slcf_fields fields else 1
  | _ => 1

def slcf_fields : List (String × Json) → Nat
  | [] => 0
  | (k, v) :: rest => (if k = "uid" then 0 else spec_leaf_count_flat v) + slcf_fields rest

end

mutual

/-- True when no all-node array occurs at a position both counters reach:
inside node objects (recursively), no field value is an array whose elements
are all node-like.  On such documents the estimator's count and the claimed
count coincide. -/
def node_array_free : Json → Bool
  | .obj fields =>
    if is_node (.obj fields) then naf_fields fields else true
  | .arr items => !items.all is_node
  | _ => true

def naf_fields : List (String × Json) → Bool
  | [] => true
  | (_, v) :: rest => node_array_free v && naf_fields rest

end

mutual

/-- The positions at which the compiler's traversal would see a field
literally named `uid`: among the object's own entries, or — recursively —
inside a non-matched field holding a node object or an array of node
objects.  (Fields matched by an upsert pattern are removed before the
recursion and are not traversed; values inside non-node objects or mixed
arrays are never traversed.) -/
def reaches_uid (pats : String → Bool) : Json → Bool
  | .obj fields =>
    fields.any (fun p => p.1 == "uid") || ru_fields pats fields
  | _ => false

def ru_fields (pats : String → Bool) : List (String × Json) → Bool
  | [] => false
  | (k, v) :: rest =>
    (if pats k then false
     else
       match v with
       | .obj fs => is_node (.obj fs) && reaches_uid pats (.obj fs)
       | .arr items => items.all is_node && ru_items pats items
       | _ => false) || ru_fields pats rest

def ru_items (pats : String → Bool) : List Json → Bool
  | [] => false
  | i :: rest => reaches_uid pats i || ru_items pats rest

end

/-! ## Supporting definitions for the statements and proofs -/

/-- The variable triples `scanVars` collects for a given list of matched
fields, starting from a given offset: consecutive `v_{index}_{offset}`
names. -/
def mkVars (index : Nat) : Nat → List (String × Json) → List (String × String × Json)
  | _, [] => []
  | off, (k, v) :: rest => (var_name_for index (off + 1), k, v) :: mkVars index (off + 1) rest

/-- A field value the compiler keeps inline (no recursion): any scalar, an
object that is not a node (geojson), or an array with a non-node element. -/
def keeps_inline : Json → Bool
  | .obj fs => !is_node (.obj fs)
  | .arr items => !items.all is_node
  | _ => true

/-- `st'` extends `st`: the accumulators only grow, every added mutation
carries a guard condition, and every added set-doc is an object whose
pattern-matched top-level keys can only be the inserted `uid`. -/
def StExtends (pats : String → Bool) (st st' : St) : Prop :=
  (∃ q, st'.query = st.query ++ q) ∧
  (∃ m, st'.mutations = st.mutations ++ m ∧ ∀ x ∈ m, x.cond ≠ none) ∧
  (∃ s, st'.setDocs = st.setDocs ++ s ∧
    ∀ d ∈ s, ∀ gs, d = Json.obj gs → ∀ p ∈ gs, pats p.1 = true → p.1 = "uid")

/-! ### Concrete inputs used by the claim instances -/

/-- The empty accumulator state (`process_chunk` starts each chunk here,
with the offset reset per document). -/
def st0 : St := { offset := 0, query := [], setDocs := [], mutations := [] }

/-- No upsert patterns configured. -/
def pats_none : String → Bool := fun _ => false

/-- A pattern matching exactly the field name `name`. -/
def pats_name : String → Bool := fun k => k == "name"

/-- Patterns matching the field names `a` and `b`. -/
def pats_ab : String → Bool := fun k => k == "a" || k == "b"

/-- `{"a": {}, "b": {}}`: two keyless sibling nodes. -/
def doc_two_blank : Json := .obj [("a", .obj []), ("b", .obj [])]

/-- `{"dept": {"name": "Eng"}, "name": "Alice"}` in map iteration order. -/
def doc_alice : Json := .obj [("dept", .obj [("name", .str "Eng")]), ("name", .str "Alice")]

/-- `{"geo": {"type": "Point", "uid": 1}}`: a `uid` field hidden inside a
geojson (non-node) value. -/
def doc_geo_uid : Json := .obj [("geo", .obj [("type", .str "Point"), ("uid", .num 1)])]

/-- `{"name": "x", "sub": {"uid": 1}}`: a `uid` field inside a nested node,
behind an upsert-matched sibling field. -/
def doc_nested_uid : Json := .obj [("name", .str "x"), ("sub", .obj [("uid", .num 1)])]

/-- `{"items": [{"a": 1}, {"b": 2}]}`: an array whose elements are all
node-like. -/
def doc_node_array : Json :=
  .obj [("items", .arr [.obj [("a", .num 1)], .obj [("b", .num 2)]])]

/-- `{"name": "x"}`: a document whose only field is an upsert key. -/
def doc_name_only : Json := .obj [("name", .str "x")]

/-- `{"uid": 1}`: a document supplying the identity field directly. -/
def doc_uid_direct : Json := .obj [("uid", .num 1)]

/-- `{"age": 5, "name": "x"}`: one upsert-matched field and one plain field. -/
def doc_age_name : Json := .obj [("age", .num 5), ("name", .str "x")]

/-- `{"a": 1, "b": 2}`: two upsert-matched fields on one node. -/
def doc_ab : Json := .obj [("a", .num 1), ("b", .num 2)]

/-- The variable triples a successful scan of `fields` collects, starting
from the state's offset. -/
def scan_vars (pats : String → Bool) (index : Nat) (st : St)
    (fields : List (String × Json)) : List (String × String × Json) :=
  mkVars index st.offset (fields.filter (fun p => pats p.1))

/-! ## Characterization lemmas -/

theorem mkVars_length (index : Nat) :
    ∀ (off : Nat) (l : List (String × Json)), (mkVars index off l).length = l.length := by
  intro off l
  induction l generalizing off with
  | nil => simp [mkVars]
  | cons p rest ih => cases p; simp [mkVars, ih]

theorem mkVars_keys (index : Nat) :
    ∀ (off : Nat) (l : List (String × Json)),
      (mkVars index off l).map (fun t => t.2.1) = l.map (fun p => p.1) := by
  intro off l
  induction l generalizing off with
  | nil => simp [mkVars]
  | cons p rest ih => cases p; simp [mkVars, ih]

theorem mkVars_names (index : Nat) :
    ∀ (off : Nat) (l : List (String × Json)) (t : String × String × Json),
      t ∈ mkVars index off l → ∃ o, t.1 = var_name_for index o := by
  intro off l
  induction l generalizing off with
  | nil => simp [mkVars]
  | cons p rest ih =>
    cases p
    intro t ht
    simp only [mkVars, List.mem_cons] at ht
    rcases ht with h | h
    · exact ⟨off + 1, by rw [h]⟩
    · exact ih (off + 1) t h

/-- A per-key variable name is never the fallback document variable name
(it is strictly longer). -/
theorem var_name_for_ne_doc_var_name (index o : Nat) :
    var_name_for index o ≠ doc_var_name index := by
  intro h
  have h2 := congrArg String.length h
  simp only [var_name_for, String.length_append] at h2
  have h3 : "_".length = 1 := rfl
  omega

/-- On a field list without a `uid` key, `scanVars` succeeds, advances the
offset by the number of pattern-matched fields, and collects exactly the
matched fields with consecutive variable names. -/
theorem scanVars_ok (pats : String → Bool) (index : Nat) :
    ∀ (fields : List (String × Json)) (off : Nat),
      (∀ p ∈ fields, p.1 ≠ "uid") →
      scanVars pats index fields off =
        (off + (fields.filter (fun p => pats p.1)).length,
         .ok (mkVars index off (fields.filter (fun p => pats p.1)))) := by
  intro fields
  induction fields with
  | nil => intro off h; simp [scanVars, mkVars]
  | cons p rest ih =>
    intro off h
    obtain ⟨k, v⟩ := p
    have hk : ¬ (k = "uid") := by
      have := h (k, v) (List.mem_cons_self _ _)
      simpa using this
    cases hp : pats k with
    | true =>
      have hrest := ih (off + 1) (fun q hq => h q (List.mem_cons_of_mem _ hq))
      simp only [scanVars, if_neg hk, hp, if_pos rfl, hrest]
      simp [List.filter_cons, hp, mkVars]
      omega
    | false =>
      have hrest := ih off (fun q hq => h q (List.mem_cons_of_mem _ hq))
      simp only [scanVars, if_neg hk, hp]
      simp [hrest, List.filter_cons, hp]

/-- If `scanVars` succeeds, the collected keys are exactly the
pattern-matched keys of the field list, in order. -/
theorem scanVars_ok_keys (pats : String → Bool) (index : Nat) :
    ∀ (fields : List (String × Json)) (off off' : Nat) (vars : List (String × String × Json)),
      scanVars pats index fields off = (off', .ok vars) →
      vars.map (fun t => t.2.1) = (fields.filter (fun p => pats p.1)).map (fun p => p.1) := by
  intro fields
  induction fields with
  | nil =>
    intro off off' vars h
    simp only [scanVars] at h
    obtain ⟨-, h2⟩ := Prod.mk.injEq .. ▸ h
    cases h2
    simp
  | cons p rest ih =>
    intro off off' vars h
    obtain ⟨k, v⟩ := p
    by_cases hk : k = "uid"
    · simp [scanVars, hk] at h
    · cases hp : pats k with
      | true =>
        simp only [scanVars, if_neg hk, hp, if_pos rfl] at h
        rcases hs : scanVars pats index rest (off + 1) with ⟨o2, r2⟩
        rw [hs] at h
        cases r2 with
        | error e => simp at h
        | ok vs =>
          simp only at h
          obtain ⟨h1, h2⟩ := Prod.mk.injEq .. ▸ h
          cases h2
          simp [List.filter_cons, hp, ih _ _ _ hs]
      | false =>
        simp only [scanVars, if_neg hk, hp] at h
        simp [List.filter_cons, hp, ih _ _ _ h]

/-- If some field is literally named `uid`, `scanVars` fails with the
structural error naming the document's index, having emitted nothing. -/
theorem scanVars_uid (pats : String → Bool) (index : Nat) :
    ∀ (fields : List (String × Json)) (off : Nat),
      (∃ p ∈ fields, p.1 = "uid") →
      ∃ off', scanVars pats index fields off = (off', .error (uid_err index)) := by
  intro fields
  induction fields with
  | nil => intro off h; simp at h
  | cons p rest ih =>
    intro off h
    obtain ⟨k, v⟩ := p
    by_cases hk : k = "uid"
    · exact ⟨off, by simp [scanVars, hk]⟩
    · have hrest : ∃ q ∈ rest, q.1 = "uid" := by
        rcases h with ⟨q, hq, hq1⟩
        rcases List.mem_cons.mp hq with h1 | h1
        · subst h1; exact absurd hq1 hk
        · exact ⟨q, h1, hq1⟩
      obtain ⟨off', hoff'⟩ := ih (off + 1) hrest
      obtain ⟨off'', hoff''⟩ := ih off hrest
      cases hp : pats k with
      | true => exact ⟨off', by simp [scanVars, hk, hp, hoff']⟩
      | false => exact ⟨off'', by simp [scanVars, hk, hp, hoff'']⟩

/-- Membership in the matched-key list agrees with the pattern predicate,
for every field of the scanned list. -/
theorem contains_filter_keys (pats : String → Bool) (fields : List (String × Json))
    (p : String × Json) (hp : p ∈ fields) :
    (((fields.filter (fun q => pats q.1)).map (fun q => q.1)).contains p.1) = pats p.1 := by
  have hiff : ((((fields.filter (fun q => pats q.1)).map (fun q => q.1)).contains p.1) = true) ↔
      p.1 ∈ (fields.filter (fun q => pats q.1)).map (fun q => q.1) := by
    simp
  cases hf : pats p.1 with
  | false =>
    rw [Bool.eq_false_iff, Ne, hiff]
    intro hmem
    obtain ⟨q, hq, hqe⟩ := List.mem_map.mp hmem
    obtain ⟨hql, hqf⟩ := List.mem_filter.mp hq
    rw [hqe, hf] at hqf
    cases hqf
  | true =>
    rw [hiff]
    exact List.mem_map.mpr ⟨p, List.mem_filter.mpr ⟨hp, hf⟩, rfl⟩

/-! ## Step lemmas: one-level unfoldings of the compiler -/

theorem process_doc_nonobj (pats : String → Bool) (index : Nat) (doc : Json) (st : St)
    (h : doc.isObj = false) :
    process_doc pats index doc st =
      (st, .error ("Expected object at " ++ toString index ++
                   ", but found other document: " ++ doc.render)) := by
  cases doc with
  | obj fields => simp [Json.isObj] at h
  | null => rw [process_doc.eq_def]
  | bool b => rw [process_doc.eq_def]
  | num n => rw [process_doc.eq_def]
  | str s => rw [process_doc.eq_def]
  | arr elems => rw [process_doc.eq_def]

theorem process_doc_scan_err (pats : String → Bool) (index : Nat)
    (fields : List (String × Json)) (st : St) (off : Nat) (e : String)
    (hscan : scanVars pats index fields st.offset = (off, .error e)) :
    process_doc pats index (.obj fields) st = ({ st with offset := off }, .error e) := by
  rw [process_doc.eq_def]
  dsimp only
  rw [hscan]

theorem process_doc_pf_err (pats : String → Bool) (index : Nat)
    (fields : List (String × Json)) (st : St) (off : Nat)
    (vars : List (String × String × Json)) (st2 : St) (e : String)
    (hscan : scanVars pats index fields st.offset = (off, .ok vars))
    (hpf : process_fields pats index (vars.map (fun t => t.2.1)) fields
             (scan_state st index off vars) = (st2, .error e)) :
    process_doc pats index (.obj fields) st = (st2, .error e) := by
  rw [process_doc.eq_def]
  dsimp only
  rw [hscan]
  dsimp only
  rw [hpf]

theorem process_doc_pf_push (pats : String → Bool) (index : Nat)
    (fields : List (String × Json)) (st : St) (off : Nat)
    (vars : List (String × String × Json)) (st2 : St) (fields2 : List (String × Json))
    (hscan : scanVars pats index fields st.offset = (off, .ok vars))
    (hpf : process_fields pats index (vars.map (fun t => t.2.1)) fields
             (scan_state st index off vars) = (st2, .ok fields2))
    (hlen : (fields2 ++ [("uid", Json.str (node_ref index vars))]).length > 1) :
    process_doc pats index (.obj fields) st =
      ({ st2 with setDocs :=
           st2.setDocs ++ [Json.obj (fields2 ++ [("uid", Json.str (node_ref index vars))])] },
       .ok (Json.obj [("uid", Json.str (node_ref index vars))])) := by
  rw [process_doc.eq_def]
  dsimp only
  rw [hscan]
  dsimp only
  rw [hpf]
  dsimp only
  rw [if_pos hlen]

theorem process_doc_pf_nopush (pats : String → Bool) (index : Nat)
    (fields : List (String × Json)) (st : St) (off : Nat)
    (vars : List (String × String × Json)) (st2 : St) (fields2 : List (String × Json))
    (hscan : scanVars pats index fields st.offset = (off, .ok vars))
    (hpf : process_fields pats index (vars.map (fun t => t.2.1)) fields
             (scan_state st index off vars) = (st2, .ok fields2))
    (hlen : ¬ (fields2 ++ [("uid", Json.str (node_ref index vars))]).length > 1) :
    process_doc pats index (.obj fields) st =
      (st2, .ok (Json.obj (fields2 ++ [("uid", Json.str (node_ref index vars))]))) := by
  rw [process_doc.eq_def]
  dsimp only
  rw [hscan]
  dsimp only
  rw [hpf]
  dsimp only
  rw [if_neg hlen]

theorem process_fields_nil (pats : String → Bool) (index : Nat) (matched : List String)
    (st : St) : process_fields pats index matched [] st = (st, .ok []) := by
  rw [process_fields.eq_def]

theorem process_fields_skip (pats : String → Bool) (index : Nat) (matched : List String)
    (k : String) (v : Json) (rest : List (String × Json)) (st : St)
    (hcond : matched.contains k = true) :
    process_fields pats index matched ((k, v) :: rest) st =
      process_fields pats index matched rest st := by
  rw [process_fields.eq_def]
  dsimp only
  rw [if_pos hcond]

theorem process_fields_keep (pats : String → Bool) (index : Nat) (matched : List String)
    (k : String) (v : Json) (rest : List (String × Json)) (st : St)
    (hcond : matched.contains k = false) (hkeep : keeps_inline v = true) :
    process_fields pats index matched ((k, v) :: rest) st =
      ((process_fields pats index matched rest st).1,
       (process_fields pats index matched rest st).2.map (fun rest' => (k, v) :: rest')) := by
  have hcond' : ¬ matched.contains k = true := by rw [hcond]; simp
  rcases hr : process_fields pats index matched rest st with ⟨st2, r2⟩
  cases v with
  | obj fs =>
    have hnode : ¬ is_node (.obj fs) = true := by
      simpa [keeps_inline] using hkeep
    rw [process_fields.eq_def]
    dsimp only
    rw [if_neg hcond']
    rw [if_neg hnode]
    rw [hr]
    cases r2 <;> simp [Except.map]
  | arr items =>
    have hall : ¬ items.all is_node = true := by
      simpa [keeps_inline] using hkeep
    rw [process_fields.eq_def]
    dsimp only
    rw [if_neg hcond']
    rw [if_neg hall]
    rw [hr]
    cases r2 <;> simp [Except.map]
  | null =>
    rw [process_fields.eq_def]
    dsimp only
    rw [if_neg hcond']
    rw [hr]
    cases r2 <;> simp [Except.map]
  | bool b =>
    rw [process_fields.eq_def]
    dsimp only
    rw [if_neg hcond']
    rw [hr]
    cases r2 <;> simp [Except.map]
  | num n =>
    rw [process_fields.eq_def]
    dsimp only
    rw [if_neg hcond']
    rw [hr]
    cases r2 <;> simp [Except.map]
  | str s =>
    rw [process_fields.eq_def]
    dsimp only
    rw [if_neg hcond']
    rw [hr]
    cases r2 <;> simp [Except.map]

theorem process_fields_node_err (pats : String → Bool) (index : Nat) (matched : List String)
    (k : String) (fs : List (String × Json)) (rest : List (String × Json)) (st st1 : St)
    (e : String)
    (hcond : matched.contains k = false) (hnode : is_node (.obj fs) = true)
    (hpd : process_doc pats index (.obj fs) st = (st1, .error e)) :
    process_fields pats index matched ((k, .obj fs) :: rest) st = (st1, .error e) := by
  have hcond' : ¬ matched.contains k = true := by rw [hcond]; simp
  rw [process_fields.eq_def]
  dsimp only
  rw [if_neg hcond']
  rw [if_pos hnode]
  rw [hpd]

theorem process_fields_node_ok (pats : String → Bool) (index : Nat) (matched : List String)
    (k : String) (fs : List (String × Json)) (rest : List (String × Json)) (st st1 : St)
    (v' : Json)
    (hcond : matched.contains k = false) (hnode : is_node (.obj fs) = true)
    (hpd : process_doc pats index (.obj fs) st = (st1, .ok v')) :
    process_fields pats index matched ((k, .obj fs) :: rest) st =
      ((process_fields pats index matched rest st1).1,
       (process_fields pats index matched rest st1).2.map (fun rest' => (k, v') :: rest')) := by
  have hcond' : ¬ matched.contains k = true := by rw [hcond]; simp
  rcases hr : process_fields pats index matched rest st1 with ⟨st2, r2⟩
  rw [process_fields.eq_def]
  dsimp only
  rw [if_neg hcond']
  rw [if_pos hnode]
  rw [hpd]
  dsimp only
  rw [hr]
  cases r2 <;> simp [Except.map]

theorem process_fields_arr_err (pats : String → Bool) (index : Nat) (matched : List String)
    (k : String) (items : List Json) (rest : List (String × Json)) (st st1 : St)
    (e : String)
    (hcond : matched.contains k = false) (hall : items.all is_node = true)
    (hpi : process_items pats index items st = (st1, .error e)) :
    process_fields pats index matched ((k, .arr items) :: rest) st = (st1, .error e) := by
  have hcond' : ¬ matched.contains k = true := by rw [hcond]; simp
  rw [process_fields.eq_def]
  dsimp only
  rw [if_neg hcond']
  rw [if_pos hall]
  rw [hpi]

theorem process_fields_arr_ok (pats : String → Bool) (index : Nat) (matched : List String)
    (k : String) (items : List Json) (rest : List (String × Json)) (st st1 : St)
    (items' : List Json)
    (hcond : matched.contains k = false) (hall : items.all is_node = true)
    (hpi : process_items pats index items st = (st1, .ok items')) :
    process_fields pats index matched ((k, .arr items) :: rest) st =
      ((process_fields pats index matched rest st1).1,
       (process_fields pats index matched rest st1).2.map
         (fun rest' => (k, Json.arr items') :: rest')) := by
  have hcond' : ¬ matched.contains k = true := by rw [hcond]; simp
  rcases hr : process_fields pats index matched rest st1 with ⟨st2, r2⟩
  rw [process_fields.eq_def]
  dsimp only
  rw [if_neg hcond']
  rw [if_pos hall]
  rw [hpi]
  dsimp only
  rw [hr]
  cases r2 <;> simp [Except.map]

theorem process_items_nil (pats : String → Bool) (index : Nat) (st : St) :
    process_items pats index [] st = (st, .ok []) := by
  rw [process_items.eq_def]

theorem process_items_err (pats : String → Bool) (index : Nat) (item : Json)
    (rest : List Json) (st st1 : St) (e : String)
    (hpd : process_doc pats index item st = (st1, .error e)) :
    process_items pats index (item :: rest) st = (st1, .error e) := by
  rw [process_items.eq_def]
  dsimp only
  rw [hpd]

theorem process_items_ok (pats : String → Bool) (index : Nat) (item : Json)
    (rest : List Json) (st st1 : St) (item' : Json)
    (hpd : process_doc pats index item st = (st1, .ok item')) :
    process_items pats index (item :: rest) st =
      ((process_items pats index rest st1).1,
       (process_items pats index rest st1).2.map (fun rest' => item' :: rest')) := by
  rcases hr : process_items pats index rest st1 with ⟨st2, r2⟩
  rw [process_items.eq_def]
  dsimp only
  rw [hpd]
  dsimp only
  rw [hr]
  cases r2 <;> simp [Except.map]

/-! ## Growth and residual-shape invariants of the compiler -/

theorem StExtends.refl (pats : String → Bool) (st : St) : StExtends pats st st :=
  ⟨⟨[], by simp⟩, ⟨[], by simp, by simp⟩, ⟨[], by simp, by simp⟩⟩

theorem StExtends.trans {pats : String → Bool} {st1 st2 st3 : St}
    (h12 : StExtends pats st1 st2) (h23 : StExtends pats st2 st3) :
    StExtends pats st1 st3 := by
  obtain ⟨⟨q1, hq1⟩, ⟨m1, hm1, hm1c⟩, ⟨s1, hs1, hs1c⟩⟩ := h12
  obtain ⟨⟨q2, hq2⟩, ⟨m2, hm2, hm2c⟩, ⟨s2, hs2, hs2c⟩⟩ := h23
  refine ⟨⟨q1 ++ q2, by rw [hq2, hq1, List.append_assoc]⟩,
          ⟨m1 ++ m2, by rw [hm2, hm1, List.append_assoc], ?_⟩,
          ⟨s1 ++ s2, by rw [hs2, hs1, List.append_assoc], ?_⟩⟩
  · intro x hx
    rcases List.mem_append.mp hx with hx' | hx'
    · exact hm1c x hx'
    · exact hm2c x hx'
  · intro d hd
    rcases List.mem_append.mp hd with hd' | hd'
    · exact hs1c d hd'
    · exact hs2c d hd'

/-- A node's scan only appends query lines and guarded mutations. -/
theorem scan_state_ext (pats : String → Bool) (st : St) (index off : Nat)
    (vars : List (String × String × Json)) :
    StExtends pats st (scan_state st index off vars) := by
  refine ⟨⟨node_query_lines index vars, by simp [scan_state]⟩,
          ⟨vars.map (fun t => upsert_mutation t.1 t.2.1 t.2.2), by simp [scan_state], ?_⟩,
          ⟨[], by simp [scan_state], by simp⟩⟩
  intro x hx
  obtain ⟨t, -, rfl⟩ := List.mem_map.mp hx
  simp [upsert_mutation]

mutual

/-- `process_doc` only appends to the accumulators; every mutation it pushes
is guarded; every residual object it pushes has no pattern-matched top-level
key other than the inserted `uid`. -/
theorem process_doc_effects (pats : String → Bool) (index : Nat) (doc : Json) :
    ∀ (st st' : St) (r : Except String Json),
      process_doc pats index doc st = (st', r) → StExtends pats st st' := by
  match doc with
  | .null | .bool _ | .num _ | .str _ | .arr _ =>
    intro st st' r h
    rw [process_doc_nonobj pats index _ st (by simp [Json.isObj])] at h
    cases h
    exact StExtends.refl pats st
  | .obj fields =>
    intro st st' r h
    rcases hscan : scanVars pats index fields st.offset with ⟨off, rs⟩
    cases rs with
    | error e =>
      rw [process_doc_scan_err pats index fields st off e hscan] at h
      cases h
      exact ⟨⟨[], by simp⟩, ⟨[], by simp, by simp⟩, ⟨[], by simp, by simp⟩⟩
    | ok vars =>
      have hmatched := scanVars_ok_keys pats index fields st.offset off vars hscan
      rcases hpfr : process_fields pats index (vars.map (fun t => t.2.1)) fields
          (scan_state st index off vars) with ⟨st2, r2⟩
      have hpf := process_fields_effects pats index (vars.map (fun t => t.2.1)) fields
          (scan_state st index off vars) st2 r2 hpfr
      cases r2 with
      | error e =>
        rw [process_doc_pf_err pats index fields st off vars st2 e hscan hpfr] at h
        cases h
        exact StExtends.trans (scan_state_ext pats st index off vars) hpf.1
      | ok fields2 =>
        have hkeys2 := hpf.2 fields2 rfl
        by_cases hlen : (fields2 ++ [("uid", Json.str (node_ref index vars))]).length > 1
        · rw [process_doc_pf_push pats index fields st off vars st2 fields2 hscan hpfr hlen] at h
          cases h
          refine StExtends.trans (scan_state_ext pats st index off vars)
            (StExtends.trans hpf.1 ?_)
          refine ⟨⟨[], by simp⟩, ⟨[], by simp, by simp⟩, ⟨_, rfl, ?_⟩⟩
          intro d hd gs hdg p hp hpat
          rcases List.mem_singleton.mp hd with rfl
          cases hdg
          rcases List.mem_append.mp hp with hpf2 | hpu
          · have hmem : p.1 ∈ fields2.map (fun p => p.1) := List.mem_map_of_mem _ hpf2
            rw [hkeys2] at hmem
            obtain ⟨q, hq, hqe⟩ := List.mem_map.mp hmem
            obtain ⟨hql, hqf⟩ := List.mem_filter.mp hq
            have hc := contains_filter_keys pats fields q hql
            rw [← hmatched] at hc
            simp only [Bool.not_eq_true'] at hqf
            rw [hqf, hqe, hpat] at hc
            cases hc
          · have hpu2 : p = ("uid", Json.str (node_ref index vars)) := List.mem_singleton.mp hpu
            rw [hpu2]
        · rw [process_doc_pf_nopush pats index fields st off vars st2 fields2 hscan hpfr hlen] at h
          cases h
          exact StExtends.trans (scan_state_ext pats st index off vars) hpf.1
termination_by sizeOf doc

/-- `process_fields` only appends to the accumulators, and on success the
keys of the rewritten field list are exactly the non-matched keys. -/
theorem process_fields_effects (pats : String → Bool) (index : Nat) (matched : List String)
    (fields : List (String × Json)) :
    ∀ (st st' : St) (r : Except String (List (String × Json))),
      process_fields pats index matched fields st = (st', r) →
      StExtends pats st st' ∧
        ∀ fields2, r = .ok fields2 →
          fields2.map (fun p => p.1) =
            (fields.filter (fun p => !matched.contains p.1)).map (fun p => p.1) := by
  match fields with
  | [] =>
    intro st st' r h
    rw [process_fields_nil] at h
    cases h
    refine ⟨StExtends.refl pats st, ?_⟩
    intro fields2 h2
    cases h2
    simp
  | (k, v) :: rest =>
    intro st st' r h
    cases hcond : matched.contains k with
    | true =>
      rw [process_fields_skip pats index matched k v rest st hcond] at h
      obtain ⟨hext, hkeys⟩ := process_fields_effects pats index matched rest st st' r h
      refine ⟨hext, ?_⟩
      intro fields2 h2
      rw [hkeys fields2 h2]
      have hk : k ∈ matched := by simpa using hcond
      simp [List.filter_cons, hk]
    | false =>
      have hk : ¬ k ∈ matched := by
        intro hmem
        have : matched.contains k = true := by simpa using hmem
        rw [this] at hcond
        cases hcond
      cases hv : keeps_inline v with
      | true =>
        rw [process_fields_keep pats index matched k v rest st hcond hv] at h
        rcases hr : process_fields pats index matched rest st with ⟨st2, r2⟩
        rw [hr] at h
        obtain ⟨hext, hkeys⟩ := process_fields_effects pats index matched rest st st2 r2 hr
        cases r2 with
        | error e =>
          cases h
          exact ⟨hext, by intro fields2 h2; cases h2⟩
        | ok rest' =>
          cases h
          refine ⟨hext, ?_⟩
          intro fields2 h2
          cases h2
          simp [List.filter_cons, hk, hkeys rest' rfl]
      | false =>
        cases v with
        | obj fs =>
          have hnode : is_node (.obj fs) = true := by
            simpa [keeps_inline] using hv
          rcases hpd : process_doc pats index (.obj fs) st with ⟨st1, r1⟩
          have hext1 := process_doc_effects pats index (.obj fs) st st1 r1 hpd
          cases r1 with
          | error e =>
            rw [process_fields_node_err pats index matched k fs rest st st1 e hcond hnode hpd] at h
            cases h
            exact ⟨hext1, by intro fields2 h2; cases h2⟩
          | ok v' =>
            rw [process_fields_node_ok pats index matched k fs rest st st1 v' hcond hnode hpd] at h
            rcases hr : process_fields pats index matched rest st1 with ⟨st2, r2⟩
            rw [hr] at h
            obtain ⟨hext2, hkeys⟩ := process_fields_effects pats index matched rest st1 st2 r2 hr
            cases r2 with
            | error e =>
              cases h
              exact ⟨hext1.trans hext2, by intro fields2 h2; cases h2⟩
            | ok rest' =>
              cases h
              refine ⟨hext1.trans hext2, ?_⟩
              intro fields2 h2
              cases h2
              simp [List.filter_cons, hk, hkeys rest' rfl]
        | arr items =>
          have hall : items.all is_node = true := by
            simpa [keeps_inline] using hv
          rcases hpi : process_items pats index items st with ⟨st1, r1⟩
          have hext1 := process_items_effects pats index items st st1 r1 hpi
          cases r1 with
          | error e =>
            rw [process_fields_arr_err pats index matched k items rest st st1 e hcond hall hpi] at h
            cases h
            exact ⟨hext1, by intro fields2 h2; cases h2⟩
          | ok items' =>
            rw [process_fields_arr_ok pats index matched k items rest st st1 items' hcond hall hpi] at h
            rcases hr : process_fields pats index matched rest st1 with ⟨st2, r2⟩
            rw [hr] at h
            obtain ⟨hext2, hkeys⟩ := process_fields_effects pats index matched rest st1 st2 r2 hr
            cases r2 with
            | error e =>
              cases h
              exact ⟨hext1.trans hext2, by intro fields2 h2; cases h2⟩
            | ok rest' =>
              cases h
              refine ⟨hext1.trans hext2, ?_⟩
              intro fields2 h2
              cases h2
              simp [List.filter_cons, hk, hkeys rest' rfl]
        | null => simp [keeps_inline] at hv
        | bool b => simp [keeps_inline] at hv
        | num n => simp [keeps_inline] at hv
        | str s => simp [keeps_inline] at hv
termination_by sizeOf fields

/-- `process_items` only appends to the accumulators. -/
theorem process_items_effects (pats : String → Bool) (index : Nat) (items : List Json) :
    ∀ (st st' : St) (r : Except String (List Json)),
      process_items pats index items st = (st', r) → StExtends pats st st' := by
  match items with
  | [] =>
    intro st st' r h
    rw [process_items_nil] at h
    cases h
    exact StExtends.refl pats st
  | item :: rest =>
    intro st st' r h
    rcases hpd : process_doc pats index item st with ⟨st1, r1⟩
    have h1 := process_doc_effects pats index item st st1 r1 hpd
    cases r1 with
    | error e =>
      rw [process_items_err pats index item rest st st1 e hpd] at h
      cases h
      exact h1
    | ok item' =>
      rw [process_items_ok pats index item rest st st1 item' hpd] at h
      rcases hpi : process_items pats index rest st1 with ⟨st2, r2⟩
      rw [hpi] at h
      have h2 := process_items_effects pats index rest st1 st2 r2 hpi
      cases r2 with
      | error e =>
        cases h
        exact h1.trans h2
      | ok rest' =>
        cases h
        exact h1.trans h2
termination_by sizeOf items

end

theorem reaches_uid_nonobj (pats : String → Bool) (v : Json) (h : v.isObj = false) :
    reaches_uid pats v = false := by
  cases v with
  | obj fields => simp [Json.isObj] at h
  | null => rw [reaches_uid.eq_def]
  | bool b => rw [reaches_uid.eq_def]
  | num n => rw [reaches_uid.eq_def]
  | str s => rw [reaches_uid.eq_def]
  | arr elems => rw [reaches_uid.eq_def]

theorem reaches_uid_obj (pats : String → Bool) (fields : List (String × Json)) :
    reaches_uid pats (.obj fields) =
      (fields.any (fun p => p.1 == "uid") || ru_fields pats fields) := by
  rw [reaches_uid.eq_def]

theorem ru_fields_nil (pats : String → Bool) : ru_fields pats [] = false := by
  rw [ru_fields.eq_def]

theorem ru_fields_pat (pats : String → Bool) (k : String) (v : Json)
    (rest : List (String × Json)) (hpk : pats k = true) :
    ru_fields pats ((k, v) :: rest) = ru_fields pats rest := by
  rw [ru_fields.eq_def]
  simp [hpk]

theorem ru_fields_obj (pats : String → Bool) (k : String) (fs : List (String × Json))
    (rest : List (String × Json)) (hpk : pats k = false) :
    ru_fields pats ((k, .obj fs) :: rest) =
      ((is_node (.obj fs) && reaches_uid pats (.obj fs)) || ru_fields pats rest) := by
  rw [ru_fields.eq_def]
  simp [hpk]

theorem ru_fields_arr (pats : String → Bool) (k : String) (items : List Json)
    (rest : List (String × Json)) (hpk : pats k = false) :
    ru_fields pats ((k, .arr items) :: rest) =
      ((items.all is_node && ru_items pats items) || ru_fields pats rest) := by
  rw [ru_fields.eq_def]
  simp [hpk]

theorem ru_fields_null (pats : String → Bool) (k : String)
    (rest : List (String × Json)) (hpk : pats k = false) :
    ru_fields pats ((k, .null) :: rest) = ru_fields pats rest := by
  rw [ru_fields.eq_def]
  simp [hpk]

theorem ru_fields_bool (pats : String → Bool) (k : String) (b : Bool)
    (rest : List (String × Json)) (hpk : pats k = false) :
    ru_fields pats ((k, .bool b) :: rest) = ru_fields pats rest := by
  rw [ru_fields.eq_def]
  simp [hpk]

theorem ru_fields_num (pats : String → Bool) (k : String) (n : Int)
    (rest : List (String × Json)) (hpk : pats k = false) :
    ru_fields pats ((k, .num n) :: rest) = ru_fields pats rest := by
  rw [ru_fields.eq_def]
  simp [hpk]

theorem ru_fields_str (pats : String → Bool) (k : String) (s : String)
    (rest : List (String × Json)) (hpk : pats k = false) :
    ru_fields pats ((k, .str s) :: rest) = ru_fields pats rest := by
  rw [ru_fields.eq_def]
  simp [hpk]

theorem ru_items_nil (pats : String → Bool) : ru_items pats [] = false := by
  rw [ru_items.eq_def]

theorem ru_items_cons (pats : String → Bool) (i : Json) (rest : List Json) :
    ru_items pats (i :: rest) = (reaches_uid pats i || ru_items pats rest) := by
  rw [ru_items.eq_def]

theorem is_node_obj (v : Json) (h : is_node v = true) : ∃ fs, v = Json.obj fs := by
  cases v with
  | obj fs => exact ⟨fs, rfl⟩
  | null => simp [is_node, Json.isObj] at h
  | bool b => simp [is_node, Json.isObj] at h
  | num n => simp [is_node, Json.isObj] at h
  | str s => simp [is_node, Json.isObj] at h
  | arr items => simp [is_node, Json.isObj] at h

mutual

/-- If the compiler's traversal reaches a field named `uid`, compilation of
the document fails with the structural error naming the document's index;
if the document is an object and the traversal reaches no such field,
compilation succeeds. -/
theorem process_doc_uid (pats : String → Bool) (index : Nat) (doc : Json) :
    ∀ st : St,
      (reaches_uid pats doc = true →
        ∃ st', process_doc pats index doc st = (st', .error (uid_err index))) ∧
      (doc.isObj = true → reaches_uid pats doc = false →
        ∃ st' out, process_doc pats index doc st = (st', .ok out)) := by
  match doc with
  | .null =>
    intro st
    refine ⟨fun hr => ?_, fun hobj _ => ?_⟩
    · rw [reaches_uid_nonobj pats .null rfl] at hr
      exact Bool.noConfusion hr
    · simp [Json.isObj] at hobj
  | .bool b =>
    intro st
    refine ⟨fun hr => ?_, fun hobj _ => ?_⟩
    · rw [reaches_uid_nonobj pats (.bool b) rfl] at hr
      exact Bool.noConfusion hr
    · simp [Json.isObj] at hobj
  | .num n =>
    intro st
    refine ⟨fun hr => ?_, fun hobj _ => ?_⟩
    · rw [reaches_uid_nonobj pats (.num n) rfl] at hr
      exact Bool.noConfusion hr
    · simp [Json.isObj] at hobj
  | .str s =>
    intro st
    refine ⟨fun hr => ?_, fun hobj _ => ?_⟩
    · rw [reaches_uid_nonobj pats (.str s) rfl] at hr
      exact Bool.noConfusion hr
    · simp [Json.isObj] at hobj
  | .arr elems =>
    intro st
    refine ⟨fun hr => ?_, fun hobj _ => ?_⟩
    · rw [reaches_uid_nonobj pats (.arr elems) rfl] at hr
      exact Bool.noConfusion hr
    · simp [Json.isObj] at hobj
  | .obj fields =>
    intro st
    rw [reaches_uid_obj pats fields]
    cases hany : fields.any (fun p => p.1 == "uid") with
    | true =>
      have hex : ∃ p ∈ fields, p.1 = "uid" := by simpa using hany
      obtain ⟨off', hscan⟩ := scanVars_uid pats index fields st.offset hex
      constructor
      · intro hr
        exact ⟨{ st with offset := off' },
               process_doc_scan_err pats index fields st off' _ hscan⟩
      · intro hobj hr
        rw [Bool.true_or] at hr
        exact Bool.noConfusion hr
    | false =>
      simp only [Bool.false_or]
      have hnouid : ∀ p ∈ fields, p.1 ≠ "uid" := by
        intro p hp hpe
        have hcontra : fields.any (fun p => p.1 == "uid") = true :=
          List.any_eq_true.mpr ⟨p, hp, by simp [hpe]⟩
        rw [hany] at hcontra
        exact Bool.noConfusion hcontra
      have hscan := scanVars_ok pats index fields st.offset hnouid
      have hmatched := scanVars_ok_keys pats index fields st.offset _ _ hscan
      have hmk : ∀ p ∈ fields,
          ((mkVars index st.offset (fields.filter (fun p => pats p.1))).map
            (fun t => t.2.1)).contains p.1 = pats p.1 := by
        intro p hp
        rw [hmatched]
        exact contains_filter_keys pats fields p hp
      have hpf := process_fields_uid pats index
        ((mkVars index st.offset (fields.filter (fun p => pats p.1))).map (fun t => t.2.1))
        fields
        (scan_state st index (st.offset + (fields.filter (fun p => pats p.1)).length)
          (mkVars index st.offset (fields.filter (fun p => pats p.1))))
        hmk
      constructor
      · intro hr
        obtain ⟨st', hpferr⟩ := hpf.1 hr
        exact ⟨st', process_doc_pf_err pats index fields st _ _ st' _ hscan hpferr⟩
      · intro hobj hr
        obtain ⟨st', fields2, hpfok⟩ := hpf.2 hr
        by_cases hlen :
            (fields2 ++ [("uid", Json.str (node_ref index
              (mkVars index st.offset (fields.filter (fun p => pats p.1)))))]).length > 1
        · exact ⟨_, _, process_doc_pf_push pats index fields st _ _ st' fields2 hscan hpfok hlen⟩
        · exact ⟨_, _, process_doc_pf_nopush pats index fields st _ _ st' fields2 hscan hpfok hlen⟩
termination_by sizeOf doc

/-- Field-list version of `process_doc_uid`, for a matched-key list that
agrees with the patterns on the fields being processed. -/
theorem process_fields_uid (pats : String → Bool) (index : Nat) (matched : List String)
    (fields : List (String × Json)) :
    ∀ st : St,
      (∀ p ∈ fields, matched.contains p.1 = pats p.1) →
      (ru_fields pats fields = true →
        ∃ st', process_fields pats index matched fields st = (st', .error (uid_err index))) ∧
      (ru_fields pats fields = false →
        ∃ st' fields2, process_fields pats index matched fields st = (st', .ok fields2)) := by
  match fields with
  | [] =>
    intro st hmk
    rw [ru_fields_nil pats]
    refine ⟨fun hr => Bool.noConfusion hr, fun _ => ?_⟩
    exact ⟨st, [], process_fields_nil pats index matched st⟩
  | (k, v) :: rest =>
    intro st hmk
    have hmkrest : ∀ p ∈ rest, matched.contains p.1 = pats p.1 :=
      fun p hp => hmk p (List.mem_cons_of_mem _ hp)
    have hmkk := hmk (k, v) (List.mem_cons_self _ _)
    cases hpk : pats k with
    | true =>
      have hcond : matched.contains k = true := by rw [hmkk, hpk]
      rw [ru_fields_pat pats k v rest hpk]
      rw [process_fields_skip pats index matched k v rest st hcond]
      exact process_fields_uid pats index matched rest st hmkrest
    | false =>
      have hcond : matched.contains k = false := by rw [hmkk, hpk]
      cases v with
      | obj fs =>
        rw [ru_fields_obj pats k fs rest hpk]
        cases hnode : is_node (.obj fs) with
        | false =>
          simp only [Bool.false_and, Bool.false_or]
          have hkeep : keeps_inline (.obj fs) = true := by simp [keeps_inline, hnode]
          have hstep := process_fields_keep pats index matched k (.obj fs) rest st hcond hkeep
          have ih := process_fields_uid pats index matched rest st hmkrest
          constructor
          · intro hr
            obtain ⟨st', herr⟩ := ih.1 hr
            refine ⟨st', ?_⟩
            rw [hstep, herr]
            simp [Except.map]
          · intro hr
            obtain ⟨st', fields2, hok⟩ := ih.2 hr
            refine ⟨st', (k, .obj fs) :: fields2, ?_⟩
            rw [hstep, hok]
            simp [Except.map]
        | true =>
          simp only [Bool.true_and]
          cases hreach : reaches_uid pats (.obj fs) with
          | true =>
            obtain ⟨st1, herr⟩ := (process_doc_uid pats index (.obj fs) st).1 hreach
            constructor
            · intro hr
              exact ⟨st1,
                process_fields_node_err pats index matched k fs rest st st1 _ hcond hnode herr⟩
            · intro hr
              rw [Bool.true_or] at hr
              exact Bool.noConfusion hr
          | false =>
            simp only [Bool.false_or]
            obtain ⟨st1, v', hok1⟩ :=
              (process_doc_uid pats index (.obj fs) st).2 (by simp [Json.isObj]) hreach
            have hstep :=
              process_fields_node_ok pats index matched k fs rest st st1 v' hcond hnode hok1
            have ih := process_fields_uid pats index matched rest st1 hmkrest
            constructor
            · intro hr
              obtain ⟨st', herr⟩ := ih.1 hr
              refine ⟨st', ?_⟩
              rw [hstep, herr]
              simp [Except.map]
            · intro hr
              obtain ⟨st', fields2, hok⟩ := ih.2 hr
              refine ⟨st', (k, v') :: fields2, ?_⟩
              rw [hstep, hok]
              simp [Except.map]
      | arr items =>
        rw [ru_fields_arr pats k items rest hpk]
        cases hall : items.all is_node with
        | false =>
          simp only [Bool.false_and, Bool.false_or]
          have hkeep : keeps_inline (.arr items) = true := by simp [keeps_inline, hall]
          have hstep := process_fields_keep pats index matched k (.arr items) rest st hcond hkeep
          have ih := process_fields_uid pats index matched rest st hmkrest
          constructor
          · intro hr
            obtain ⟨st', herr⟩ := ih.1 hr
            refine ⟨st', ?_⟩
            rw [hstep, herr]
            simp [Except.map]
          · intro hr
            obtain ⟨st', fields2, hok⟩ := ih.2 hr
            refine ⟨st', (k, .arr items) :: fields2, ?_⟩
            rw [hstep, hok]
            simp [Except.map]
        | true =>
          simp only [Bool.true_and]
          have hallmem : ∀ i ∈ items, is_node i = true := by
            simpa [List.all_eq_true] using hall
          cases hreach : ru_items pats items with
          | true =>
            obtain ⟨st1, herr⟩ := (process_items_uid pats index items st hallmem).1 hreach
            constructor
            · intro hr
              exact ⟨st1,
                process_fields_arr_err pats index matched k items rest st st1 _ hcond hall herr⟩
            · intro hr
              rw [Bool.true_or] at hr
              exact Bool.noConfusion hr
          | false =>
            simp only [Bool.false_or]
            obtain ⟨st1, items', hok1⟩ := (process_items_uid pats index items st hallmem).2 hreach
            have hstep :=
              process_fields_arr_ok pats index matched k items rest st st1 items' hcond hall hok1
            have ih := process_fields_uid pats index matched rest st1 hmkrest
            constructor
            · intro hr
              obtain ⟨st', herr⟩ := ih.1 hr
              refine ⟨st', ?_⟩
              rw [hstep, herr]
              simp [Except.map]
            · intro hr
              obtain ⟨st', fields2, hok⟩ := ih.2 hr
              refine ⟨st', (k, .arr items') :: fields2, ?_⟩
              rw [hstep, hok]
              simp [Except.map]
      | null =>
        rw [ru_fields_null pats k rest hpk]
        have hstep := process_fields_keep pats index matched k .null rest st hcond (by
          simp [keeps_inline])
        have ih := process_fields_uid pats index matched rest st hmkrest
        constructor
        · intro hr
          obtain ⟨st', herr⟩ := ih.1 hr
          refine ⟨st', ?_⟩
          rw [hstep, herr]
          simp [Except.map]
        · intro hr
          obtain ⟨st', fields2, hok⟩ := ih.2 hr
          refine ⟨st', (k, .null) :: fields2, ?_⟩
          rw [hstep, hok]
          simp [Except.map]
      | bool b =>
        rw [ru_fields_bool pats k b rest hpk]
        have hstep := process_fields_keep pats index matched k (.bool b) rest st hcond (by
          simp [keeps_inline])
        have ih := process_fields_uid pats index matched rest st hmkrest
        constructor
        · intro hr
          obtain ⟨st', herr⟩ := ih.1 hr
          refine ⟨st', ?_⟩
          rw [hstep, herr]
          simp [Except.map]
        · intro hr
          obtain ⟨st', fields2, hok⟩ := ih.2 hr
          refine ⟨st', (k, .bool b) :: fields2, ?_⟩
          rw [hstep, hok]
          simp [Except.map]
      | num n =>
        rw [ru_fields_num pats k n rest hpk]
        have hstep := process_fields_keep pats index matched k (.num n) rest st hcond (by
          simp [keeps_inline])
        have ih := process_fields_uid pats index matched rest st hmkrest
        constructor
        · intro hr
          obtain ⟨st', herr⟩ := ih.1 hr
          refine ⟨st', ?_⟩
          rw [hstep, herr]
          simp [Except.map]
        · intro hr
          obtain ⟨st', fields2, hok⟩ := ih.2 hr
          refine ⟨st', (k, .num n) :: fields2, ?_⟩
          rw [hstep, hok]
          simp [Except.map]
      | str s =>
        rw [ru_fields_str pats k s rest hpk]
        have hstep := process_fields_keep pats index matched k (.str s) rest st hcond (by
          simp [keeps_inline])
        have ih := process_fields_uid pats index matched rest st hmkrest
        constructor
        · intro hr
          obtain ⟨st', herr⟩ := ih.1 hr
          refine ⟨st', ?_⟩
          rw [hstep, herr]
          simp [Except.map]
        · intro hr
          obtain ⟨st', fields2, hok⟩ := ih.2 hr
          refine ⟨st', (k, .str s) :: fields2, ?_⟩
          rw [hstep, hok]
          simp [Except.map]
termination_by sizeOf fields

/-- Item-list version of `process_doc_uid` for all-node arrays. -/
theorem process_items_uid (pats : String → Bool) (index : Nat) (items : List Json) :
    ∀ st : St,
      (∀ i ∈ items, is_node i = true) →
      (ru_items pats items = true →
        ∃ st', process_items pats index items st = (st', .error (uid_err index))) ∧
      (ru_items pats items = false →
        ∃ st' items2, process_items pats index items st = (st', .ok items2)) := by
  match items with
  | [] =>
    intro st hall
    rw [ru_items_nil pats]
    refine ⟨fun hr => Bool.noConfusion hr, fun _ => ?_⟩
    exact ⟨st, [], process_items_nil pats index st⟩
  | i :: rest =>
    intro st hall
    have hallrest : ∀ j ∈ rest, is_node j = true :=
      fun j hj => hall j (List.mem_cons_of_mem _ hj)
    have hnode := hall i (List.mem_cons_self _ _)
    rw [ru_items_cons pats i rest]
    cases hreach : reaches_uid pats i with
    | true =>
      obtain ⟨st1, herr⟩ := (process_doc_uid pats index i st).1 hreach
      constructor
      · intro hr
        exact ⟨st1, process_items_err pats index i rest st st1 _ herr⟩
      · intro hr
        rw [Bool.true_or] at hr
        exact Bool.noConfusion hr
    | false =>
      simp only [Bool.false_or]
      have hobj : i.isObj = true := by
        obtain ⟨fs, rfl⟩ := is_node_obj i hnode
        simp [Json.isObj]
      obtain ⟨st1, i', hok1⟩ := (process_doc_uid pats index i st).2 hobj hreach
      have hstep := process_items_ok pats index i rest st st1 i' hok1
      have ih := process_items_uid pats index rest st1 hallrest
      constructor
      · intro hr
        obtain ⟨st', herr⟩ := ih.1 hr
        refine ⟨st', ?_⟩
        rw [hstep, herr]
        simp [Except.map]
      · intro hr
        obtain ⟨st', items2, hok⟩ := ih.2 hr
        refine ⟨st', i' :: items2, ?_⟩
        rw [hstep, hok]
        simp [Except.map]
termination_by sizeOf items

end

/-! ## Decomposition of a successful node compilation -/

/-- A successful `process_doc` on an object decomposes into: a successful
scan (hence no input-supplied `uid`), the recursion over the fields, and the
final identity/residual step (either pushing the residual and leaving the
stub, or leaving the identity-only object). -/
theorem process_doc_ok_decomp (pats : String → Bool) (index : Nat)
    (fields : List (String × Json)) (st st' : St) (out : Json)
    (hrun : process_doc pats index (.obj fields) st = (st', .ok out)) :
    (∀ p ∈ fields, p.1 ≠ "uid") ∧
    ∃ st2 fields2,
      process_fields pats index
        ((scan_vars pats index st fields).map (fun t => t.2.1)) fields
        (scan_state st index (st.offset + (fields.filter (fun p => pats p.1)).length)
          (scan_vars pats index st fields)) = (st2, .ok fields2) ∧
      (((fields2 ++ [("uid", Json.str (node_ref index (scan_vars pats index st fields)))]).length > 1 ∧
         st' = { st2 with setDocs := st2.setDocs ++
           [Json.obj (fields2 ++
             [("uid", Json.str (node_ref index (scan_vars pats index st fields)))])] } ∧
         out = Json.obj [("uid", Json.str (node_ref index (scan_vars pats index st fields)))])
       ∨
       (¬ (fields2 ++ [("uid", Json.str (node_ref index (scan_vars pats index st fields)))]).length > 1 ∧
         st' = st2 ∧
         out = Json.obj (fields2 ++
           [("uid", Json.str (node_ref index (scan_vars pats index st fields)))]))) := by
  rcases hscan : scanVars pats index fields st.offset with ⟨off, rs⟩
  cases rs with
  | error e =>
    rw [process_doc_scan_err pats index fields st off e hscan] at hrun
    simp at hrun
  | ok vars =>
    have hnouid : ∀ p ∈ fields, p.1 ≠ "uid" := by
      intro p hp hpe
      obtain ⟨off2, he⟩ := scanVars_uid pats index fields st.offset ⟨p, hp, hpe⟩
      rw [he] at hscan
      simp at hscan
    have hscan2 := scanVars_ok pats index fields st.offset hnouid
    refine ⟨hnouid, ?_⟩
    rcases hpfr : process_fields pats index
        ((scan_vars pats index st fields).map (fun t => t.2.1)) fields
        (scan_state st index (st.offset + (fields.filter (fun p => pats p.1)).length)
          (scan_vars pats index st fields)) with ⟨st2, r2⟩
    cases r2 with
    | error e =>
      rw [process_doc_pf_err pats index fields st _ _ st2 e hscan2 hpfr] at hrun
      simp at hrun
    | ok fields2 =>
      refine ⟨st2, fields2, rfl, ?_⟩
      by_cases hlen : (fields2 ++
          [("uid", Json.str (node_ref index (scan_vars pats index st fields)))]).length > 1
      · rw [process_doc_pf_push pats index fields st _ _ st2 fields2 hscan2 hpfr hlen] at hrun
        rw [Prod.mk.injEq] at hrun
        obtain ⟨hst, hout⟩ := hrun
        refine Or.inl ⟨hlen, hst.symm, ?_⟩
        have := hout
        simp only [Except.ok.injEq] at this
        exact this.symm
      · rw [process_doc_pf_nopush pats index fields st _ _ st2 fields2 hscan2 hpfr hlen] at hrun
        rw [Prod.mk.injEq] at hrun
        obtain ⟨hst, hout⟩ := hrun
        refine Or.inr ⟨hlen, hst.symm, ?_⟩
        have := hout
        simp only [Except.ok.injEq] at this
        exact this.symm

/-- When every field's key was matched (and removed), the recursion over the
remaining fields does nothing. -/
theorem process_fields_all_skip (pats : String → Bool) (index : Nat)
    (matched : List String) :
    ∀ (fields : List (String × Json)) (st : St),
      (∀ p ∈ fields, matched.contains p.1 = true) →
      process_fields pats index matched fields st = (st, .ok []) := by
  intro fields
  induction fields with
  | nil => intro st h; exact process_fields_nil pats index matched st
  | cons p rest ih =>
    intro st h
    obtain ⟨k, v⟩ := p
    rw [process_fields_skip pats index matched k v rest st (h (k, v) (List.mem_cons_self _ _))]
    exact ih st (fun q hq => h q (List.mem_cons_of_mem _ hq))

/-! ## Chunk-level lemmas -/

theorem chunkFold_nil (pats : String → Bool) (st : St) (nq : Nat) :
    chunkFold pats [] st nq = .ok (st, nq) := by
  rw [chunkFold.eq_def]

theorem chunkFold_cons_err (pats : String → Bool) (index : Nat) (doc : Json)
    (rest : List (Nat × Json)) (st st1 : St) (nq : Nat) (e : String)
    (hpd : process_doc pats index doc { st with offset := 0 } = (st1, .error e)) :
    chunkFold pats ((index, doc) :: rest) st nq = .error e := by
  rw [chunkFold.eq_def]
  dsimp only
  rw [hpd]

theorem chunkFold_cons_ok (pats : String → Bool) (index : Nat) (doc : Json)
    (rest : List (Nat × Json)) (st st1 : St) (nq : Nat) (out : Json)
    (hpd : process_doc pats index doc { st with offset := 0 } = (st1, .ok out)) :
    chunkFold pats ((index, doc) :: rest) st nq =
      chunkFold pats rest st1 (nq + count_nquads doc) := by
  rw [chunkFold.eq_def]
  dsimp only
  rw [hpd]

/-- All mutations accumulated by the per-document loop carry a condition,
provided the starting ones do. -/
theorem chunkFold_cond (pats : String → Bool) :
    ∀ (chunk : List (Nat × Json)) (st : St) (nq : Nat) (st' : St) (nq' : Nat),
      chunkFold pats chunk st nq = .ok (st', nq') →
      (∀ m ∈ st.mutations, m.cond ≠ none) →
      ∀ m ∈ st'.mutations, m.cond ≠ none := by
  intro chunk
  induction chunk with
  | nil =>
    intro st nq st' nq' h hst
    rw [chunkFold_nil] at h
    cases h
    exact hst
  | cons p rest ih =>
    intro st nq st' nq' h hst
    obtain ⟨index, doc⟩ := p
    rcases hpd : process_doc pats index doc { st with offset := 0 } with ⟨st1, r1⟩
    cases r1 with
    | error e =>
      rw [chunkFold_cons_err pats index doc rest st st1 nq e hpd] at h
      cases h
    | ok out =>
      rw [chunkFold_cons_ok pats index doc rest st st1 nq out hpd] at h
      refine ih st1 (nq + count_nquads doc) st' nq' h ?_
      obtain ⟨-, ⟨m, hm, hmc⟩, -⟩ :=
        process_doc_effects pats index doc { st with offset := 0 } st1 (.ok out) hpd
      intro x hx
      rw [hm] at hx
      rcases List.mem_append.mp hx with hx' | hx'
      · exact hst x hx'
      · exact hmc x hx'

/-- The per-document loop processes the chunk strictly in document order:
folding over a concatenation folds over the first part, then the second. -/
theorem chunkFold_append (pats : String → Bool) :
    ∀ (c1 c2 : List (Nat × Json)) (st : St) (nq : Nat),
      chunkFold pats (c1 ++ c2) st nq =
        (match chunkFold pats c1 st nq with
         | .ok (st', nq') => chunkFold pats c2 st' nq'
         | .error e => .error e) := by
  intro c1
  induction c1 with
  | nil =>
    intro c2 st nq
    rw [List.nil_append, chunkFold_nil]
  | cons p rest ih =>
    intro c2 st nq
    obtain ⟨index, doc⟩ := p
    rcases hpd : process_doc pats index doc { st with offset := 0 } with ⟨st1, r1⟩
    cases r1 with
    | error e =>
      rw [List.cons_append, chunkFold_cons_err pats index doc (rest ++ c2) st st1 nq e hpd,
          chunkFold_cons_err pats index doc rest st st1 nq e hpd]
    | ok out =>
      rw [List.cons_append, chunkFold_cons_ok pats index doc (rest ++ c2) st st1 nq out hpd,
          chunkFold_cons_ok pats index doc rest st st1 nq out hpd]
      exact ih c2 st1 (nq + count_nquads doc)

/-! ## Counting lemmas for the nquad estimate -/

mutual

/-- The estimator agrees everywhere with the spec-worded count in which
every array is an opaque leaf. -/
theorem cnq_flat (v : Json) : count_nquads v = spec_leaf_count_flat v := by
  match v with
  | .obj fields =>
    rw [count_nquads.eq_def, spec_leaf_count_flat.eq_def]
    dsimp only
    rw [cnq_fields_flat fields]
  | .null => rw [count_nquads.eq_def, spec_leaf_count_flat.eq_def]
  | .bool b => rw [count_nquads.eq_def, spec_leaf_count_flat.eq_def]
  | .num n => rw [count_nquads.eq_def, spec_leaf_count_flat.eq_def]
  | .str s => rw [count_nquads.eq_def, spec_leaf_count_flat.eq_def]
  | .arr elems => rw [count_nquads.eq_def, spec_leaf_count_flat.eq_def]
termination_by sizeOf v

theorem cnq_fields_flat (fields : List (String × Json)) :
    count_nquads_fields fields = slcf_fields fields := by
  match fields with
  | [] => rw [count_nquads_fields.eq_def, slcf_fields.eq_def]
  | (k, v) :: rest =>
    rw [count_nquads_fields.eq_def, slcf_fields.eq_def]
    dsimp only
    rw [cnq_flat v, cnq_fields_flat rest]
termination_by sizeOf fields

end

mutual

/-- On documents free of all-node arrays, the estimator agrees with the
claimed count (the one that descends all-node arrays element by element). -/
theorem cnq_spec (v : Json) : node_array_free v = true →
    count_nquads v = spec_leaf_count v := by
  match v with
  | .obj fields =>
    intro h
    rw [node_array_free.eq_def] at h
    dsimp only at h
    rw [count_nquads.eq_def, spec_leaf_count.eq_def]
    dsimp only
    by_cases hn : is_node (.obj fields) = true
    · rw [if_pos hn] at h ⊢
      rw [if_pos hn]
      exact cnqf_spec fields h
    · rw [if_neg hn]
      rw [if_neg hn]
  | .null => intro h; rw [count_nquads.eq_def, spec_leaf_count.eq_def]
  | .bool b => intro h; rw [count_nquads.eq_def, spec_leaf_count.eq_def]
  | .num n => intro h; rw [count_nquads.eq_def, spec_leaf_count.eq_def]
  | .str s => intro h; rw [count_nquads.eq_def, spec_leaf_count.eq_def]
  | .arr elems =>
    intro h
    rw [node_array_free.eq_def] at h
    dsimp only at h
    rw [count_nquads.eq_def, spec_leaf_count.eq_def]
    dsimp only
    have hall : ¬ elems.all is_node = true := by
      intro hc
      rw [hc] at h
      cases h
    rw [if_neg hall]
termination_by sizeOf v

theorem cnqf_spec (fields : List (String × Json)) : naf_fields fields = true →
    count_nquads_fields fields = slc_fields fields := by
  match fields with
  | [] => intro h; rw [count_nquads_fields.eq_def, slc_fields.eq_def]
  | (k, v) :: rest =>
    intro h
    rw [naf_fields.eq_def] at h
    dsimp only at h
    rw [Bool.and_eq_true] at h
    rw [count_nquads_fields.eq_def, slc_fields.eq_def]
    dsimp only
    rw [cnq_spec v h.1, cnqf_spec rest h.2]
termination_by sizeOf fields

end

/-! ## Claim theorems -/

/-- Claim C1 (code bug, failing evaluation): query variable names are NOT
unique within a chunk.  For the document `{"a": {}, "b": {}}` at index 0
with no upsert patterns, the root node and both child nodes all receive the
same fresh name `v_0` — the fallback name `format!("v_{}", index)` omits the
per-document counter — so the single residual object references one shared
blank node `_:v_0` three times, instead of three distinct fresh references. -/
theorem c1_fresh_name_collision :
    process_doc pats_none 0 doc_two_blank st0 =
      ({ offset := 0
       , query := []
       , setDocs :=
           [Json.obj [("a", Json.obj [("uid", Json.str "_:v_0")]),
                      ("b", Json.obj [("uid", Json.str "_:v_0")]),
                      ("uid", Json.str "_:v_0")]]
       , mutations := [] },
       .ok (Json.obj [("uid", Json.str "_:v_0")])) := by
  decide

/-- Claim C2 (code bug, failing evaluation): the round-trip property fails.
Compiling `{"a": {}, "b": {}}` (three node-shaped values) and applying the
resulting mutations to an empty database creates a graph with exactly one
node — all three nodes share the blank-node name `_:v_0`, so the distinct
identity references collapse to one. -/
theorem c2_round_trip_collapse :
    graph_node_count (chunk_mutations (processChunkCompile pats_none [(0, doc_two_blank)])) = 1 ∧
    node_shaped_count doc_two_blank = 3 := by
  decide

/-- Claim C3 (confirmed): if exactly one field of a node matches an upsert
pattern, the node's own emission is exactly one conditional mutation — the
first mutation appended, before any descendant's (`rest`) — whose payload
sets the key on `uid(v_{index}_{offset+1})` and whose guard is
`@if(eq(len(var), 0))`, i.e. "apply only if the variable matched zero
existing entities"; and no residual object pushed during the compilation of
this node (its own or any descendant's) contains the matched key's field. -/
theorem c3_one_key (pats : String → Bool) (index : Nat) (fields : List (String × Json))
    (st st' : St) (out : Json) (k : String) (v : Json)
    (hone : fields.filter (fun p => pats p.1) = [(k, v)])
    (hrun : process_doc pats index (.obj fields) st = (st', .ok out)) :
    (∃ rest, st'.mutations =
      st.mutations ++ upsert_mutation (var_name_for index (st.offset + 1)) k v :: rest) ∧
    (upsert_mutation (var_name_for index (st.offset + 1)) k v).cond =
      some ("@if(eq(len(" ++ var_name_for index (st.offset + 1) ++ "), 0))") ∧
    (∃ added, st'.setDocs = st.setDocs ++ added ∧
      ∀ d ∈ added, ∀ gs, d = Json.obj gs → ∀ p ∈ gs, p.1 ≠ k) := by
  obtain ⟨hnouid, st2, fields2, hpf, hcases⟩ :=
    process_doc_ok_decomp pats index fields st st' out hrun
  have hkv : (k, v) ∈ fields.filter (fun p => pats p.1) := by
    rw [hone]
    exact List.mem_singleton.mpr rfl
  obtain ⟨hkmem, hkp⟩ := List.mem_filter.mp hkv
  have hkuid : k ≠ "uid" := hnouid (k, v) hkmem
  have hsv : scan_vars pats index st fields = [(var_name_for index (st.offset + 1), k, v)] := by
    rw [scan_vars, hone]
    simp [mkVars]
  have hmuts : st'.mutations = st2.mutations := by
    rcases hcases with ⟨-, hst, -⟩ | ⟨-, hst, -⟩ <;> rw [hst]
  refine ⟨?_, rfl, ?_⟩
  · obtain ⟨⟨-, ⟨m, hm, -⟩, -⟩, -⟩ := process_fields_effects pats index _ fields _ _ _ hpf
    refine ⟨m, ?_⟩
    rw [hmuts, hm, scan_state, hsv]
    simp
  · obtain ⟨-, -, ⟨s, hs, hinv⟩⟩ := process_doc_effects pats index (.obj fields) st st' (.ok out) hrun
    refine ⟨s, hs, ?_⟩
    intro d hd gs hdg p hp hpk1
    have := hinv d hd gs hdg p hp (by rw [hpk1]; exact hkp)
    exact hkuid (hpk1 ▸ this)

/-- Witness for C3 at `{"age": 5, "name": "x"}` with a pattern matching
`name`. -/
theorem c3_one_key_witness :
    (∃ rest,
      ({ offset := 1
       , query := ["v_0_1 as var(func: eq(<name>, \"x\"), first: 1)\n"]
       , setDocs := [Json.obj [("age", Json.num 5), ("uid", Json.str "uid(v_0_1)")]]
       , mutations := [upsert_mutation "v_0_1" "name" (Json.str "x")] } : St).mutations =
        st0.mutations ++ upsert_mutation (var_name_for 0 (st0.offset + 1)) "name" (Json.str "x") :: rest) ∧
    (upsert_mutation (var_name_for 0 (st0.offset + 1)) "name" (Json.str "x")).cond =
      some ("@if(eq(len(" ++ var_name_for 0 (st0.offset + 1) ++ "), 0))") ∧
    (∃ added,
      ({ offset := 1
       , query := ["v_0_1 as var(func: eq(<name>, \"x\"), first: 1)\n"]
       , setDocs := [Json.obj [("age", Json.num 5), ("uid", Json.str "uid(v_0_1)")]]
       , mutations := [upsert_mutation "v_0_1" "name" (Json.str "x")] } : St).setDocs =
        st0.setDocs ++ added ∧
      ∀ d ∈ added, ∀ gs, d = Json.obj gs → ∀ p ∈ gs, p.1 ≠ "name") :=
  c3_one_key pats_name 0 [("age", Json.num 5), ("name", Json.str "x")] st0
    { offset := 1
    , query := ["v_0_1 as var(func: eq(<name>, \"x\"), first: 1)\n"]
    , setDocs := [Json.obj [("age", Json.num 5), ("uid", Json.str "uid(v_0_1)")]]
    , mutations := [upsert_mutation "v_0_1" "name" (Json.str "x")] }
    (Json.obj [("uid", Json.str "uid(v_0_1)")]) "name"
    (Json.str "x") (by decide) (by decide)

/-- Claim C4 (confirmed): when several fields of one node match upsert
patterns, the node emits one lookup line per matched key followed by exactly
one union line binding the fallback variable `v_{index}` to the first match
among the per-key variables (descendants append after, in `rest`); the
node's identity is `uid(v_{index})`, and the union variable name differs
from every per-key variable name. -/
theorem c4_multi_key (pats : String → Bool) (index : Nat) (fields : List (String × Json))
    (st st' : St) (out : Json) (m1 m2 : String × Json) (ms : List (String × Json))
    (hmulti : fields.filter (fun p => pats p.1) = m1 :: m2 :: ms)
    (hrun : process_doc pats index (.obj fields) st = (st', .ok out)) :
    (∃ rest, st'.query = st.query
        ++ (mkVars index st.offset (m1 :: m2 :: ms)).map (fun t => lookup_line t.1 t.2.1 t.2.2)
        ++ [union_line (doc_var_name index)
             ((mkVars index st.offset (m1 :: m2 :: ms)).map (fun t => t.1))]
        ++ rest) ∧
    ((mkVars index st.offset (m1 :: m2 :: ms)).map
        (fun t => lookup_line t.1 t.2.1 t.2.2)).length = (m1 :: m2 :: ms).length ∧
    out = Json.obj [("uid", Json.str ("uid(" ++ doc_var_name index ++ ")"))] ∧
    ∀ t ∈ mkVars index st.offset (m1 :: m2 :: ms), t.1 ≠ doc_var_name index := by
  obtain ⟨hnouid, st2, fields2, hpf, hcases⟩ :=
    process_doc_ok_decomp pats index fields st st' out hrun
  have hsv : scan_vars pats index st fields = mkVars index st.offset (m1 :: m2 :: ms) := by
    rw [scan_vars, hmulti]
  have hlen2 : (mkVars index st.offset (m1 :: m2 :: ms)).length = ms.length + 2 := by
    rw [mkVars_length]
    simp
  have hne1 : ¬ (mkVars index st.offset (m1 :: m2 :: ms)).length = 1 := by
    rw [hlen2]
    omega
  have hgt1 : (mkVars index st.offset (m1 :: m2 :: ms)).length > 1 := by
    rw [hlen2]
    omega
  have hgt0 : (mkVars index st.offset (m1 :: m2 :: ms)).length > 0 := by
    rw [hlen2]
    omega
  have hdv : doc_var index (mkVars index st.offset (m1 :: m2 :: ms)) = doc_var_name index := by
    rw [doc_var, if_neg hne1]
  have hnr : node_ref index (mkVars index st.offset (m1 :: m2 :: ms)) =
      "uid(" ++ doc_var_name index ++ ")" := by
    rw [node_ref, if_pos hgt0, hdv]
  have hql : node_query_lines index (mkVars index st.offset (m1 :: m2 :: ms)) =
      (mkVars index st.offset (m1 :: m2 :: ms)).map (fun t => lookup_line t.1 t.2.1 t.2.2)
        ++ [union_line (doc_var_name index)
             ((mkVars index st.offset (m1 :: m2 :: ms)).map (fun t => t.1))] := by
    rw [node_query_lines, if_pos hgt1, hdv]
  have hquery : st'.query = st2.query := by
    rcases hcases with ⟨-, hst, -⟩ | ⟨-, hst, -⟩ <;> rw [hst]
  refine ⟨?_, ?_, ?_, ?_⟩
  · obtain ⟨⟨⟨q, hq⟩, -, -⟩, -⟩ := process_fields_effects pats index _ fields _ _ _ hpf
    refine ⟨q, ?_⟩
    rw [hquery, hq, scan_state, hsv, hql]
    simp [List.append_assoc]
  · rw [List.length_map, mkVars_length]
  · rcases hcases with ⟨-, -, hout⟩ | ⟨hl, -, hout⟩
    · rw [hout, hsv, hnr]
    · have hf2 : fields2 = [] := by
        cases fields2 with
        | nil => rfl
        | cons a as => exact absurd (by simp) hl
      rw [hout, hf2, hsv, hnr]
      simp
  · intro t ht
    obtain ⟨o, ho⟩ := mkVars_names index st.offset (m1 :: m2 :: ms) t ht
    rw [ho]
    exact var_name_for_ne_doc_var_name index o

/-- Witness for C4 at `{"a": 1, "b": 2}` with patterns matching `a` and `b`. -/
theorem c4_multi_key_witness :
    (∃ rest,
      ({ offset := 2
       , query := ["v_0_1 as var(func: eq(<a>, 1), first: 1)\n",
                   "v_0_2 as var(func: eq(<b>, 2), first: 1)\n",
                   "v_0 as var(func: uid(v_0_1,v_0_2), first: 1)\n"]
       , setDocs := []
       , mutations := [upsert_mutation "v_0_1" "a" (Json.num 1),
                       upsert_mutation "v_0_2" "b" (Json.num 2)] } : St).query =
        st0.query
        ++ (mkVars 0 st0.offset [("a", Json.num 1), ("b", Json.num 2)]).map
             (fun t => lookup_line t.1 t.2.1 t.2.2)
        ++ [union_line (doc_var_name 0)
             ((mkVars 0 st0.offset [("a", Json.num 1), ("b", Json.num 2)]).map (fun t => t.1))]
        ++ rest) ∧
    ((mkVars 0 st0.offset [("a", Json.num 1), ("b", Json.num 2)]).map
        (fun t => lookup_line t.1 t.2.1 t.2.2)).length =
      ([("a", Json.num 1), ("b", Json.num 2)] : List (String × Json)).length ∧
    Json.obj [("uid", Json.str "uid(v_0)")] =
      Json.obj [("uid", Json.str ("uid(" ++ doc_var_name 0 ++ ")"))] ∧
    ∀ t ∈ mkVars 0 st0.offset [("a", Json.num 1), ("b", Json.num 2)], t.1 ≠ doc_var_name 0 :=
  c4_multi_key pats_ab 0 [("a", Json.num 1), ("b", Json.num 2)] st0 _ _ ("a", Json.num 1) ("b", Json.num 2) []
    (by decide) (by decide)

/-! ## Step lemmas for the retry loop and the chunk compile -/

theorem retry_loop_nil (q : String) (m : List Mutation) (rands : List Nat) :
    retry_loop q m [] rands =
      { submissions := [], sleeps := [], aborted := 0, result := .exhausted } := by
  rw [retry_loop.eq_def]

theorem retry_loop_success (q : String) (m : List Mutation) (rest : List Attempt)
    (rands : List Nat) :
    retry_loop q m (.success :: rest) rands =
      { submissions := [(q, m)], sleeps := [], aborted := 0, result := .committed } := by
  rw [retry_loop.eq_def]

theorem retry_loop_transient (q : String) (m : List Mutation) (e : CommitError)
    (rest : List Attempt) (rands : List Nat) (he : is_transient e = true) :
    retry_loop q m (.failure e :: rest) rands =
      { submissions := (q, m) :: (retry_loop q m rest rands.tail).submissions
      , sleeps := gen_range_500_1500 (rands.headD 0) :: (retry_loop q m rest rands.tail).sleeps
      , aborted := (retry_loop q m rest rands.tail).aborted + 1
      , result := (retry_loop q m rest rands.tail).result } := by
  cases e with
  | grpcCannotDoRequest code =>
    cases code with
    | aborted => rw [retry_loop.eq_def]
    | resourceExhausted => rw [retry_loop.eq_def]
    | otherCode n => exact absurd he (by simp [is_transient])
  | notDgraph msg => exact absurd he (by simp [is_transient])
  | grpcOther => exact absurd he (by simp [is_transient])
  | otherDgraph => exact absurd he (by simp [is_transient])

theorem retry_loop_fatal (q : String) (m : List Mutation) (e : CommitError)
    (rest : List Attempt) (rands : List Nat) (he : is_transient e = false) :
    retry_loop q m (.failure e :: rest) rands =
      { submissions := [(q, m)], sleeps := [], aborted := 0, result := .fatal e } := by
  cases e with
  | grpcCannotDoRequest code =>
    cases code with
    | aborted => exact absurd he (by simp [is_transient])
    | resourceExhausted => exact absurd he (by simp [is_transient])
    | otherCode n => rw [retry_loop.eq_def]
  | notDgraph msg => rw [retry_loop.eq_def]
  | grpcOther => rw [retry_loop.eq_def]
  | otherDgraph => rw [retry_loop.eq_def]

theorem gen_range_500_1500_bounds (r : Nat) :
    500 ≤ gen_range_500_1500 r ∧ gen_range_500_1500 r < 1500 := by
  simp only [gen_range_500_1500]
  omega

theorem processChunkCompile_err (pats : String → Bool) (chunk : List (Nat × Json))
    (e : String)
    (hcf : chunkFold pats chunk { offset := 0, query := [], setDocs := [], mutations := [] } 0 =
      .error e) :
    processChunkCompile pats chunk = .error e := by
  unfold processChunkCompile
  rw [hcf]

theorem processChunkCompile_ok_of (pats : String → Bool) (chunk : List (Nat × Json))
    (stf : St) (nqf : Nat)
    (hcf : chunkFold pats chunk { offset := 0, query := [], setDocs := [], mutations := [] } 0 =
      .ok (stf, nqf)) :
    processChunkCompile pats chunk =
      .ok { query := "\x7b\n" ++ String.join stf.query ++ "\x7d"
          , mutations :=
              if stf.setDocs.length > 0 then
                stf.mutations ++ [{ setJson := Json.arr stf.setDocs, cond := none }]
              else stf.mutations
          , completedDocs := chunk.length
          , completedNquads := nqf } := by
  unfold processChunkCompile
  rw [hcf]

/-- Claim C5 (corrected), counterexample to the original wording: compiling
`{"dept":{"name":"Eng"},"name":"Alice"}` with deduplication on `name`, the
chunk-wide residual set mutation is not empty — it carries one residual
entry, the root object, which attaches the extra field `dept` (as a stub)
besides its identity. -/
theorem c5_residual_cex :
    ∃ m ∈ chunk_mutations (processChunkCompile pats_name [(0, doc_alice)]),
      m.cond = none ∧
      m.setJson = Json.arr [Json.obj
        [("dept", Json.obj [("uid", Json.str "uid(v_0_2)")]),
         ("uid", Json.str "uid(v_0_1)")]] := by
  decide

/-- Claim C5 (corrected): the full compile of
`{"name":"Alice","dept":{"name":"Eng"}}` with deduplication on `name`: two
lookup lines (one per `name` field), two guarded conditional mutations (one
per `name` field), and one final unconditional residual mutation whose single
entry attaches the root's remaining `dept` field as an identity stub — the
child node, left with only its identity, contributes no residual entry. -/
theorem c5_alice_end_to_end :
    processChunkCompile pats_name [(0, doc_alice)] =
      .ok { query := "\x7b\n" ++ lookup_line "v_0_1" "name" (Json.str "Alice")
                ++ lookup_line "v_0_2" "name" (Json.str "Eng") ++ "\x7d"
          , mutations :=
              [upsert_mutation "v_0_1" "name" (Json.str "Alice"),
               upsert_mutation "v_0_2" "name" (Json.str "Eng"),
               { setJson := Json.arr [Json.obj
                   [("dept", Json.obj [("uid", Json.str "uid(v_0_2)")]),
                    ("uid", Json.str "uid(v_0_1)")]]
               , cond := none }]
          , completedDocs := 1
          , completedNquads := 2 } := by
  decide

/-- Claim C6 (corrected): an input `uid` field is fatal exactly when the
compiler's traversal visits its position: whenever the traversal reaches a
field named `uid`, compilation fails with the structural error naming the
document's index; and when the `uid` field sits among the document's own
top-level entries, the error is raised by the initial scan, before any query
line, mutation or residual document of this node is produced. -/
theorem c6_uid_rejection :
    (∀ (pats : String → Bool) (index : Nat) (doc : Json) (st : St),
      reaches_uid pats doc = true →
      ∃ st', process_doc pats index doc st = (st', .error (uid_err index))) ∧
    (∀ (pats : String → Bool) (index : Nat) (fields : List (String × Json)) (st : St),
      (∃ p ∈ fields, p.1 = "uid") →
      ∃ off, process_doc pats index (.obj fields) st =
          ({ st with offset := off }, .error (uid_err index)) ∧
        ({ st with offset := off } : St).query = st.query ∧
        ({ st with offset := off } : St).mutations = st.mutations ∧
        ({ st with offset := off } : St).setDocs = st.setDocs) := by
  constructor
  · intro pats index doc st h
    exact (process_doc_uid pats index doc st).1 h
  · intro pats index fields st hex
    obtain ⟨off, he⟩ := scanVars_uid pats index fields st.offset hex
    exact ⟨off, process_doc_scan_err pats index fields st off (uid_err index) he,
      rfl, rfl, rfl⟩

/-- Claim C6 (corrected), counterexample to the original wording: a `uid`
field inside a geojson value is never visited, so
`{"geo":{"type":"Point","uid":1}}` compiles successfully; and a `uid` field
in a nested node (`{"name":"x","sub":{"uid":1}}`, dedup on `name`) is only
detected after the root's query line and conditional mutation have already
been produced — the error is not raised before all output. -/
theorem c6_position_cex :
    process_doc pats_none 0 doc_geo_uid st0 =
      ({ offset := 0
       , query := []
       , setDocs := [Json.obj
           [("geo", Json.obj [("type", Json.str "Point"), ("uid", Json.num 1)]),
            ("uid", Json.str "_:v_0")]]
       , mutations := [] },
       .ok (Json.obj [("uid", Json.str "_:v_0")])) ∧
    process_doc pats_name 0 doc_nested_uid st0 =
      ({ offset := 1
       , query := ["v_0_1 as var(func: eq(<name>, \"x\"), first: 1)\n"]
       , setDocs := []
       , mutations := [upsert_mutation "v_0_1" "name" (Json.str "x")] },
       .error (uid_err 0)) ∧
    ["v_0_1 as var(func: eq(<name>, \"x\"), first: 1)\n"] ≠ ([] : List String) ∧
    [upsert_mutation "v_0_1" "name" (Json.str "x")] ≠ ([] : List Mutation) := by
  refine ⟨by decide, by decide, by decide, by decide⟩

/-- Claim C7 (confirmed): along any trace of the commit retry loop, every
submission is the same full `(query, mutations)` pair (never a subset of the
mutations); every backoff sleep lies in the `[500, 1500)` window; the abort
counter equals the number of backoff sleeps (one increment per transient
retry); a propagated error is never one of the transient codes; and whenever
the loop terminates (commit or fatal error) it submitted exactly one more
time than it aborted — a fatal error is propagated on its first occurrence,
without retry. -/
theorem c7_transient_retry (query : String) (mutations : List Mutation) :
    ∀ (attempts : List Attempt) (rands : List Nat),
      (∀ s ∈ (retry_loop query mutations attempts rands).submissions,
        s = (query, mutations)) ∧
      (∀ d ∈ (retry_loop query mutations attempts rands).sleeps, 500 ≤ d ∧ d < 1500) ∧
      (retry_loop query mutations attempts rands).aborted =
        (retry_loop query mutations attempts rands).sleeps.length ∧
      (∀ e, (retry_loop query mutations attempts rands).result = TxnResult.fatal e →
        is_transient e = false) ∧
      ((retry_loop query mutations attempts rands).result ≠ TxnResult.exhausted →
        (retry_loop query mutations attempts rands).submissions.length =
          (retry_loop query mutations attempts rands).aborted + 1) := by
  intro attempts
  induction attempts with
  | nil =>
    intro rands
    rw [retry_loop_nil]
    refine ⟨by simp, by simp, rfl, ?_, ?_⟩
    · intro e h
      exact absurd h (by simp)
    · intro h
      exact absurd rfl h
  | cons a rest ih =>
    intro rands
    cases a with
    | success =>
      rw [retry_loop_success]
      refine ⟨?_, by simp, rfl, ?_, ?_⟩
      · intro s hs
        simpa using hs
      · intro e h
        exact absurd h (by simp)
      · intro h
        rfl
    | failure e =>
      cases he : is_transient e with
      | false =>
        rw [retry_loop_fatal query mutations e rest rands he]
        refine ⟨?_, by simp, rfl, ?_, ?_⟩
        · intro s hs
          simpa using hs
        · intro e' h
          have he' : e = e' := by
            simpa using h
          rw [← he']
          exact he
        · intro h
          rfl
      | true =>
        rw [retry_loop_transient query mutations e rest rands he]
        obtain ⟨ih1, ih2, ih3, ih4, ih5⟩ := ih rands.tail
        refine ⟨?_, ?_, ?_, ?_, ?_⟩
        · intro s hs
          rcases List.mem_cons.mp hs with h | h
          · exact h
          · exact ih1 s h
        · intro d hd
          rcases List.mem_cons.mp hd with h | h
          · rw [h]
            exact gen_range_500_1500_bounds (rands.headD 0)
          · exact ih2 d h
        · simp only [List.length_cons]
          rw [ih3]
        · intro e' h
          exact ih4 e' h
        · intro h
          simp only [List.length_cons]
          rw [ih5 h]

/-- Claim C8 (corrected), counterexample to the original wording: the
estimator does not descend into an array whose elements are all node-like.
For `{"items":[{"a":1},{"b":2}]}` the compiler recurses into the two array
elements (two scalar leaves), but `count_nquads` counts the array as one
opaque leaf: the estimate is 1, not 2. -/
theorem c8_node_array_cex :
    count_nquads doc_node_array = 1 ∧ spec_leaf_count doc_node_array = 2 := by
  decide

/-- Claim C8 (corrected): the pre-compilation nquad estimate counts one per
scalar/non-node leaf recursively under the compiler's node classification
and excludes `uid` fields, but treats every array — even an all-node array —
as a single opaque leaf.  On documents without all-node arrays inside nodes,
the estimate agrees with the fully recursive leaf count of the original
claim. -/
theorem c8_estimate :
    (∀ v : Json, count_nquads v = spec_leaf_count_flat v) ∧
    (∀ v : Json, node_array_free v = true → count_nquads v = spec_leaf_count v) :=
  ⟨fun v => cnq_flat v, fun v h => cnq_spec v h⟩

/-- Claim C9 (corrected), counterexample to the original wording: the final
residual "set" mutation is not always present.  For the single document
`{"name":"x"}` (dedup on `name`) every node is identity-only, no residual
document accumulates, and the compiled mutation list consists of the one
guarded conditional mutation only — there is no final unconditional
mutation. -/
theorem c9_no_final_set_cex :
    chunk_mutations (processChunkCompile pats_name [(0, doc_name_only)]) =
      [upsert_mutation "v_0_1" "name" (Json.str "x")] ∧
    ∀ m ∈ chunk_mutations (processChunkCompile pats_name [(0, doc_name_only)]),
      m.cond ≠ none := by
  refine ⟨by decide, by decide⟩

/-- Claim C9 (corrected): a successful chunk compile wraps the concatenated
query lines of all documents in one outer block; the accumulated mutations
are all conditional, in document order (the per-document loop folds the
chunk strictly left to right); and they are followed by exactly one final
unconditional residual "set" mutation holding every accumulated residual
document — present exactly when at least one residual document accumulated. -/
theorem c9_aggregate :
    (∀ (pats : String → Bool) (chunk : List (Nat × Json)) (out : ChunkOut),
      processChunkCompile pats chunk = .ok out →
      ∃ st nq, chunkFold pats chunk st0 0 = .ok (st, nq) ∧
        out.query = "\x7b\n" ++ String.join st.query ++ "\x7d" ∧
        out.completedNquads = nq ∧
        (∀ m ∈ st.mutations, m.cond ≠ none) ∧
        (st.setDocs ≠ [] →
          out.mutations = st.mutations ++
            [{ setJson := Json.arr st.setDocs, cond := none }]) ∧
        (st.setDocs = [] → out.mutations = st.mutations)) ∧
    (∀ (pats : String → Bool) (c1 c2 : List (Nat × Json)) (st : St) (nq : Nat),
      chunkFold pats (c1 ++ c2) st nq =
        (match chunkFold pats c1 st nq with
         | .ok (st', nq') => chunkFold pats c2 st' nq'
         | .error e => .error e)) := by
  constructor
  · intro pats chunk out h
    rcases hcf : chunkFold pats chunk
        { offset := 0, query := [], setDocs := [], mutations := [] } 0 with e | ⟨stf, nqf⟩
    · rw [processChunkCompile_err pats chunk e hcf] at h
      cases h
    · rw [processChunkCompile_ok_of pats chunk stf nqf hcf] at h
      injection h with h
      refine ⟨stf, nqf, hcf, ?_, ?_, ?_, ?_, ?_⟩
      · rw [← h]
      · rw [← h]
      · exact chunkFold_cond pats chunk st0 0 stf nqf hcf (by intro m hm; cases hm)
      · intro hne
        rw [← h]
        have hpos : stf.setDocs.length > 0 := List.length_pos.mpr hne
        simp only [if_pos hpos]
      · intro hemp
        rw [← h]
        have hnpos : ¬ stf.setDocs.length > 0 := by
          rw [hemp]
          simp
        simp only [if_neg hnpos]
  · intro pats c1 c2 st nq
    exact chunkFold_append pats c1 c2 st nq

/-- Claim C10 (confirmed): after a node compiles successfully, its parent
always sees exactly the stub object holding the node's `uid` identity
reference — `uid(var)` when at least one dedup key matched, the blank-node
name `_:v_{index}` when none did.  When fields besides the identity remain
after key-stripping and recursion, the full residual object is pushed to the
chunk's residual set carrying the same `uid` value (and when no field
remains, nothing is pushed for this node). -/
theorem c10_identity_stub (pats : String → Bool) (index : Nat)
    (fields : List (String × Json)) (st st' : St) (out : Json)
    (hrun : process_doc pats index (.obj fields) st = (st', .ok out)) :
    out = Json.obj [("uid", Json.str (node_ref index (scan_vars pats index st fields)))] ∧
    ((fields.filter (fun p => pats p.1)).length > 0 →
      node_ref index (scan_vars pats index st fields) =
        "uid(" ++ doc_var index (scan_vars pats index st fields) ++ ")") ∧
    ((fields.filter (fun p => pats p.1)).length = 0 →
      node_ref index (scan_vars pats index st fields) = "_:" ++ doc_var_name index) ∧
    (fields.filter (fun p => !pats p.1) = [] → st'.setDocs = st.setDocs) ∧
    (fields.filter (fun p => !pats p.1) ≠ [] →
      ∃ mid rew, rew ≠ [] ∧ st'.setDocs = st.setDocs ++ mid ++
        [Json.obj (rew ++
          [("uid", Json.str (node_ref index (scan_vars pats index st fields)))])]) := by
  obtain ⟨hnouid, st2, fields2, hpf, hcases⟩ :=
    process_doc_ok_decomp pats index fields st st' out hrun
  have heff := process_fields_effects pats index
    ((scan_vars pats index st fields).map (fun t => t.2.1)) fields _ _ _ hpf
  have hkeys := heff.2 fields2 rfl
  have hcont : ∀ p ∈ fields,
      (((scan_vars pats index st fields).map (fun t => t.2.1)).contains p.1) = pats p.1 := by
    intro p hp
    rw [scan_vars, mkVars_keys]
    exact contains_filter_keys pats fields p hp
  have hcongr : fields.filter
        (fun p => !((scan_vars pats index st fields).map (fun t => t.2.1)).contains p.1) =
      fields.filter (fun p => !pats p.1) := by
    apply List.filter_congr
    intro p hp
    rw [hcont p hp]
  refine ⟨?_, ?_, ?_, ?_, ?_⟩
  · rcases hcases with ⟨-, -, hout⟩ | ⟨hl, -, hout⟩
    · exact hout
    · have hf2 : fields2 = [] := by
        cases fields2 with
        | nil => rfl
        | cons a as => exact absurd (by simp) hl
      rw [hout, hf2]
      simp
  · intro hlen
    rw [node_ref, if_pos]
    rw [scan_vars, mkVars_length]
    exact hlen
  · intro hzero
    have hnil : fields.filter (fun p => pats p.1) = [] :=
      List.eq_nil_of_length_eq_zero hzero
    have hsv : scan_vars pats index st fields = [] := by
      rw [scan_vars, hnil, mkVars]
    rw [hsv]
    simp [node_ref, doc_var]
  · intro hall
    have hmem : ∀ p ∈ fields,
        (((scan_vars pats index st fields).map (fun t => t.2.1)).contains p.1) = true := by
      intro p hp
      rw [hcont p hp]
      have := List.filter_eq_nil_iff.mp hall p hp
      simpa using this
    have hskip := process_fields_all_skip pats index
      ((scan_vars pats index st fields).map (fun t => t.2.1)) fields
      (scan_state st index (st.offset + (fields.filter (fun p => pats p.1)).length)
        (scan_vars pats index st fields)) hmem
    rw [hskip] at hpf
    rw [Prod.mk.injEq] at hpf
    obtain ⟨hst2, hfl⟩ := hpf
    have hf2 : fields2 = [] := by
      injection hfl with hfl
      exact hfl.symm
    rcases hcases with ⟨hl, -, -⟩ | ⟨-, hst, -⟩
    · rw [hf2] at hl
      simp at hl
    · rw [hst, ← hst2, scan_state]
  · intro hne
    have hf2ne : fields2 ≠ [] := by
      intro hf2
      rw [hf2, hcongr] at hkeys
      exact hne (List.map_eq_nil_iff.mp hkeys.symm)
    rcases hcases with ⟨-, hst, -⟩ | ⟨hl, -, -⟩
    · obtain ⟨-, -, ⟨s, hs, -⟩⟩ := heff.1
      refine ⟨s, fields2, hf2ne, ?_⟩
      rw [hst]
      simp only [scan_state] at hs
      rw [hs]
    · exfalso
      apply hl
      cases fields2 with
      | nil => exact absurd rfl hf2ne
      | cons a as => simp

/-- Witness for C10 at `{"dept":{"name":"Eng"},"name":"Alice"}` with
deduplication on `name`. -/
theorem c10_identity_stub_witness :
    Json.obj [("uid", Json.str "uid(v_0_1)")] =
      Json.obj [("uid", Json.str (node_ref 0 (scan_vars pats_name 0 st0
        [("dept", Json.obj [("name", Json.str "Eng")]), ("name", Json.str "Alice")])))] ∧
    node_ref 0 (scan_vars pats_name 0 st0
        [("dept", Json.obj [("name", Json.str "Eng")]), ("name", Json.str "Alice")]) =
      "uid(" ++ doc_var 0 (scan_vars pats_name 0 st0
        [("dept", Json.obj [("name", Json.str "Eng")]), ("name", Json.str "Alice")]) ++ ")" ∧
    ∃ mid rew, rew ≠ [] ∧
      ({ offset := 2
       , query := ["v_0_1 as var(func: eq(<name>, \"Alice\"), first: 1)\n",
                   "v_0_2 as var(func: eq(<name>, \"Eng\"), first: 1)\n"]
       , setDocs := [Json.obj
           [("dept", Json.obj [("uid", Json.str "uid(v_0_2)")]),
            ("uid", Json.str "uid(v_0_1)")]]
       , mutations := [upsert_mutation "v_0_1" "name" (Json.str "Alice"),
                       upsert_mutation "v_0_2" "name" (Json.str "Eng")] } : St).setDocs =
        st0.setDocs ++ mid ++
        [Json.obj (rew ++
          [("uid", Json.str (node_ref 0 (scan_vars pats_name 0 st0
            [("dept", Json.obj [("name", Json.str "Eng")]), ("name", Json.str "Alice")])))])] := by
  have h := c10_identity_stub pats_name 0
    [("dept", Json.obj [("name", Json.str "Eng")]), ("name", Json.str "Alice")] st0
    { offset := 2
    , query := ["v_0_1 as var(func: eq(<name>, \"Alice\"), first: 1)\n",
                "v_0_2 as var(func: eq(<name>, \"Eng\"), first: 1)\n"]
    , setDocs := [Json.obj
        [("dept", Json.obj [("uid", Json.str "uid(v_0_2)")]),
         ("uid", Json.str "uid(v_0_1)")]]
    , mutations := [upsert_mutation "v_0_1" "name" (Json.str "Alice"),
                    upsert_mutation "v_0_2" "name" (Json.str "Eng")] }
    (Json.obj [("uid", Json.str "uid(v_0_1)")]) (by decide)
  exact ⟨h.1, h.2.1 (by decide), h.2.2.2.2 (by decide)⟩
